import Mathlib

/-!
Verification of the aggregation engine of `process_memory_history`
(`src/aggregator.py` and `bin/aggregate.py`), shallowly embedded in Lean.

Python strings are modelled as `List Char` (named `Str` below), Python
`datetime` values as a record of numeric fields compared lexicographically
(which is exactly how Python compares `datetime` objects), Python dicts as
insertion-ordered association lists (Python ≥ 3.7 guarantees insertion
order), and Python exceptions as explicit control flow.
-/

set_option maxHeartbeats 1000000

abbrev Str := List Char

/-- Auxiliary fuelled loop for `str(n)` on a natural number.
`natToDecimalAux fuel n` renders `n` in decimal provided `n ≤ fuel`;
renders most significant digit first, empty for `n = 0`. -/
def natToDecimalAux : Nat → Nat → Str
  | 0, _ => []
  | fuel + 1, n =>
    if n = 0 then []
    else natToDecimalAux fuel (n / 10) ++ [Char.ofNat (48 + n % 10)]

/-- Python `str(n)` for a non-negative integer (decimal rendering). -/
def natToDecimal (n : Nat) : Str :=
  if n = 0 then ['0'] else natToDecimalAux (n + 1) n

/-- Python `int(s)` on a decimal digit string. -/
def parseDecimal (s : Str) : Nat :=
  s.foldl (fun a c => 10 * a + (c.toNat - 48)) 0

theorem parse_step_char (d : Nat) (hd : d < 10) :
    (Char.ofNat (48 + d)).toNat - 48 = d := by
  interval_cases d <;> decide

theorem digit_char_ne_paren (d : Nat) (hd : d < 10) :
    Char.ofNat (48 + d) ≠ '(' := by
  interval_cases d <;> decide

theorem natToDecimalAux_chars (fuel n : Nat) :
    ∀ c ∈ natToDecimalAux fuel n, ∃ d, d < 10 ∧ c = Char.ofNat (48 + d) := by
  induction fuel generalizing n with
  | zero => intro c hc; simp [natToDecimalAux] at hc
  | succ fuel ih =>
    intro c hc
    by_cases h0 : n = 0
    · simp [natToDecimalAux, h0] at hc
    · simp only [natToDecimalAux, h0, if_false, List.mem_append,
        List.mem_singleton] at hc
      rcases hc with hc | hc
      · exact ih (n / 10) c hc
      · exact ⟨n % 10, Nat.mod_lt _ (by norm_num), hc⟩

theorem parseDecimal_foldl_aux (fuel : Nat) :
    ∀ n, n ≤ fuel → ∀ a : Nat,
      ∃ k, List.foldl (fun a c => 10 * a + (c.toNat - 48)) a
        (natToDecimalAux fuel n) = a * 10 ^ k + n := by
  induction fuel with
  | zero =>
    intro n hn a
    interval_cases n
    exact ⟨0, by simp [natToDecimalAux]⟩
  | succ fuel ih =>
    intro n hn a
    by_cases h0 : n = 0
    · exact ⟨0, by simp [natToDecimalAux, h0]⟩
    · have hdiv : n / 10 ≤ fuel := by
        have : n / 10 < n := Nat.div_lt_self (Nat.pos_of_ne_zero h0) (by norm_num)
        omega
      obtain ⟨k, hk⟩ := ih (n / 10) hdiv a
      refine ⟨k + 1, ?_⟩
      simp only [natToDecimalAux, h0, if_false, List.foldl_append, hk,
        List.foldl_cons, List.foldl_nil]
      rw [parse_step_char (n % 10) (Nat.mod_lt _ (by norm_num))]
      have : a * 10 ^ (k + 1) = a * 10 ^ k * 10 := by ring
      omega

/-- Decimal round trip: `int(str(n)) = n`. -/
theorem parseDecimal_natToDecimal (n : Nat) :
    parseDecimal (natToDecimal n) = n := by
  by_cases h0 : n = 0
  · simp [natToDecimal, parseDecimal, h0]
  · obtain ⟨k, hk⟩ := parseDecimal_foldl_aux (n + 1) n (Nat.le_succ n) 0
    simp only [natToDecimal, h0, if_false, parseDecimal]
    omega

theorem natToDecimal_injective : Function.Injective natToDecimal := by
  intro a b hab
  have := parseDecimal_natToDecimal a
  rw [hab, parseDecimal_natToDecimal] at this
  omega

theorem paren_not_mem_natToDecimal (n : Nat) : '(' ∉ natToDecimal n := by
  intro hmem
  by_cases h0 : n = 0
  · simp [natToDecimal, h0] at hmem
  · simp only [natToDecimal, h0, if_false] at hmem
    obtain ⟨d, hd, hc⟩ := natToDecimalAux_chars (n + 1) n _ hmem
    exact digit_char_ne_paren d hd hc.symm

/-- The series key minted on the `k`-th collision: Python `f"{pid}({k})"`. -/
def mkKey (pid k : Nat) : Str :=
  natToDecimal pid ++ '(' :: (natToDecimal k ++ [')'])

/-- Embeds `MemoryAggregator._extract_original_pid`: take the decimal prefix before
the first `'('` (Python: `int(pid_str.split('(')[0])` when `'(' in pid_str`,
else `int(pid_str)`; both cases coincide with `takeWhile (· ≠ '(')`). -/
def extractOriginalPid (s : Str) : Nat :=
  parseDecimal (s.takeWhile (fun c => c ≠ '('))

theorem takeWhile_all {α : Type} (p : α → Bool) :
    ∀ l : List α, (∀ x ∈ l, p x = true) → l.takeWhile p = l := by
  intro l hl
  induction l with
  | nil => rfl
  | cons x xs ih =>
    simp only [List.takeWhile_cons, hl x (List.mem_cons_self x xs), ih
      (fun y hy => hl y (List.mem_cons_of_mem x hy)), if_true]

theorem takeWhile_append_stop {α : Type} (p : α → Bool) (y : α)
    (l1 l2 : List α) (h1 : ∀ x ∈ l1, p x = true) (hy : p y = false) :
    (l1 ++ y :: l2).takeWhile p = l1 := by
  induction l1 with
  | nil => simp [List.takeWhile_cons, hy]
  | cons x xs ih =>
    simp only [List.cons_append, List.takeWhile_cons,
      h1 x (List.mem_cons_self x xs), ih
      (fun z hz => h1 z (List.mem_cons_of_mem x hz)), if_true]

theorem extractOriginalPid_natToDecimal (p : Nat) :
    extractOriginalPid (natToDecimal p) = p := by
  unfold extractOriginalPid
  rw [takeWhile_all _ _ (fun c hc => by
    simp only [decide_eq_true_eq, ne_eq]
    intro h; exact paren_not_mem_natToDecimal p (h ▸ hc))]
  exact parseDecimal_natToDecimal p

theorem extractOriginalPid_mkKey (p k : Nat) :
    extractOriginalPid (mkKey p k) = p := by
  unfold extractOriginalPid mkKey
  rw [takeWhile_append_stop _ _ _ _ (fun c hc => by
    simp only [decide_eq_true_eq, ne_eq]
    intro h; exact paren_not_mem_natToDecimal p (h ▸ hc)) (by decide)]
  exact parseDecimal_natToDecimal p

theorem append_singleton_cancel {α : Type} {x : α} :
    ∀ {l1 l2 : List α}, l1 ++ [x] = l2 ++ [x] → l1 = l2 := by
  intro l1 l2 h
  have := congrArg List.reverse h
  simp only [List.reverse_append, List.reverse_cons, List.reverse_nil,
    List.nil_append, List.singleton_append, List.cons.injEq] at this
  exact List.reverse_injective this.2

theorem mkKey_ne_natToDecimal (p k q : Nat) : mkKey p k ≠ natToDecimal q := by
  intro h
  exact paren_not_mem_natToDecimal q
    (h ▸ (by simp [mkKey] : '(' ∈ mkKey p k))

theorem mkKey_counter_inj (p j k : Nat) (h : mkKey p j = mkKey p k) : j = k := by
  unfold mkKey at h
  have h2 := List.append_cancel_left h
  have h3 : natToDecimal j ++ [')'] = natToDecimal k ++ [')'] :=
    List.cons_injective h2
  exact natToDecimal_injective (append_singleton_cancel h3)

/-! ### Python `datetime` model

Fields beyond the minute matter only through ordering and the
`replace(minute=…, second=0, microsecond=0)` operation, so year/month/day
are fused into a single `date` ordinal. Python compares `datetime` values
field-lexicographically, which the fused ordinal preserves. -/

structure PyDateTime where
  date : Nat
  hour : Nat
  minute : Nat
  second : Nat
  micro : Nat
deriving DecidableEq, Repr

/-- Lexicographic `≤` on equal-length lists of naturals. -/
def lexLe : List Nat → List Nat → Bool
  | [], _ => true
  | _ :: _, [] => false
  | x :: xs, y :: ys =>
    if x < y then true else if y < x then false else lexLe xs ys

theorem lexLe_refl : ∀ l : List Nat, lexLe l l = true := by
  intro l
  induction l with
  | nil => rfl
  | cons x xs ih => simp [lexLe, ih]

theorem lexLe_total : ∀ l1 l2 : List Nat,
    lexLe l1 l2 = true ∨ lexLe l2 l1 = true := by
  intro l1
  induction l1 with
  | nil => intro l2; left; rfl
  | cons x xs ih =>
    intro l2
    cases l2 with
    | nil => right; rfl
    | cons y ys =>
      by_cases hxy : x < y
      · left; simp [lexLe, hxy]
      · by_cases hyx : y < x
        · right; simp [lexLe, hyx]
        · have hx : ¬ y < x := hyx
          rcases ih ys with h | h
          · left; simp [lexLe, hxy, hyx, h]
          · right; simp [lexLe, hxy, hyx, h]

theorem lexLe_trans : ∀ {l1 l2 l3 : List Nat},
    lexLe l1 l2 = true → lexLe l2 l3 = true → lexLe l1 l3 = true := by
  intro l1
  induction l1 with
  | nil => intro l2 l3 _ _; rfl
  | cons x xs ih =>
    intro l2 l3 h12 h23
    cases l2 with
    | nil => simp [lexLe] at h12
    | cons y ys =>
      cases l3 with
      | nil => simp [lexLe] at h23
      | cons z zs =>
        simp only [lexLe] at h12 h23 ⊢
        split_ifs at h12 h23 ⊢ <;> try rfl
        all_goals try omega
        all_goals exact ih h12 h23

/-- The field tuple used for comparison. -/
def dtFields (a : PyDateTime) : List Nat :=
  [a.date, a.hour, a.minute, a.second, a.micro]

/-- Python `datetime` comparison `a <= b` (lexicographic on fields). -/
def dtLe (a b : PyDateTime) : Bool :=
  lexLe (dtFields a) (dtFields b)

theorem dtLe_refl (a : PyDateTime) : dtLe a a = true := lexLe_refl _

theorem dtLe_total (a b : PyDateTime) : dtLe a b = true ∨ dtLe b a = true :=
  lexLe_total _ _

theorem dtLe_trans {a b c : PyDateTime} (h1 : dtLe a b = true)
    (h2 : dtLe b c = true) : dtLe a c = true := lexLe_trans h1 h2

/-- Embeds the bucket-start computation of `MemoryAggregator._group_by_time_interval`:
`minute = (timestamp.minute // interval_minutes) * interval_minutes` and
`timestamp.replace(minute=minute, second=0, microsecond=0)`. -/
def bucketStart (t : PyDateTime) (intervalMinutes : Nat) : PyDateTime :=
  { t with minute := t.minute / intervalMinutes * intervalMinutes,
           second := 0, micro := 0 }

/-! ### Stable sort (Python `sorted` / `list.sort`)

Python's sort is stable and ascending. `insertS`/`sortS` is a stable
insertion sort parameterized by a boolean `le` test; an element is inserted
before the first existing element it compares `le` to, so earlier input
elements precede later equal ones. -/

def insertS {α : Type} (le : α → α → Bool) (x : α) : List α → List α
  | [] => [x]
  | y :: ys => if le x y then x :: y :: ys else y :: insertS le x ys

def sortS {α : Type} (le : α → α → Bool) : List α → List α
  | [] => []
  | x :: xs => insertS le x (sortS le xs)

theorem mem_insertS {α : Type} (le : α → α → Bool) (x : α) :
    ∀ (l : List α) (a : α), a ∈ insertS le x l ↔ a = x ∨ a ∈ l := by
  intro l a
  induction l with
  | nil => simp [insertS]
  | cons y ys ih =>
    cases hle : le x y with
    | true => simp [insertS, hle]
    | false =>
      simp only [insertS, hle, Bool.false_eq_true, if_false, List.mem_cons, ih]
      tauto

theorem mem_sortS {α : Type} (le : α → α → Bool) :
    ∀ (l : List α) (a : α), a ∈ sortS le l ↔ a ∈ l := by
  intro l a
  induction l with
  | nil => simp [sortS]
  | cons x xs ih => simp [sortS, mem_insertS, ih]

theorem length_insertS {α : Type} (le : α → α → Bool) (x : α) :
    ∀ l : List α, (insertS le x l).length = l.length + 1 := by
  intro l
  induction l with
  | nil => rfl
  | cons y ys ih =>
    cases hle : le x y with
    | true => simp [insertS, hle]
    | false => simp [insertS, hle, ih]

theorem length_sortS {α : Type} (le : α → α → Bool) :
    ∀ l : List α, (sortS le l).length = l.length := by
  intro l
  induction l with
  | nil => rfl
  | cons x xs ih => simp [sortS, length_insertS, ih]

/-- Python `sorted(l, key=k)` with a natural-number key. -/
def sortByKey {α : Type} (k : α → Nat) (l : List α) : List α :=
  sortS (fun a b => k a ≤ k b) l

theorem pairwise_insertS_key {α : Type} (k : α → Nat) (x : α)
    (l : List α) (hl : l.Pairwise (fun a b => k a ≤ k b)) :
    (insertS (fun a b => k a ≤ k b) x l).Pairwise (fun a b => k a ≤ k b) := by
  induction l with
  | nil => simp [insertS]
  | cons y ys ih =>
    rcases List.pairwise_cons.mp hl with ⟨hy, hys⟩
    cases hle : (decide (k x ≤ k y)) with
    | true =>
      have hxy : k x ≤ k y := of_decide_eq_true hle
      simp only [insertS, hle, if_true]
      refine List.pairwise_cons.mpr ⟨?_, hl⟩
      intro b hb
      rcases List.mem_cons.mp hb with hb | hb
      · exact hb ▸ hxy
      · exact le_trans hxy (hy b hb)
    | false =>
      have hyx : k y ≤ k x := by
        have := of_decide_eq_false hle; omega
      simp only [insertS, hle, Bool.false_eq_true, if_false]
      refine List.pairwise_cons.mpr ⟨?_, ih hys⟩
      intro b hb
      rcases (mem_insertS _ _ _ _).mp hb with hb | hb
      · exact hb ▸ hyx
      · exact hy b hb

theorem pairwise_sortByKey {α : Type} (k : α → Nat) (l : List α) :
    (sortByKey k l).Pairwise (fun a b => k a ≤ k b) := by
  induction l with
  | nil => exact List.Pairwise.nil
  | cons x xs ih => exact pairwise_insertS_key k x _ ih

theorem filter_insertS_eqKey {α : Type} (k : α → Nat) (v : Nat) (x : α)
    (hx : k x = v) :
    ∀ l : List α,
      (insertS (fun a b => k a ≤ k b) x l).filter (fun a => k a = v)
        = x :: l.filter (fun a => k a = v) := by
  intro l
  induction l with
  | nil => simp [insertS, List.filter_cons, hx]
  | cons y ys ih =>
    cases hle : (decide (k x ≤ k y)) with
    | true =>
      have hred : insertS (fun a b => decide (k a ≤ k b)) x (y :: ys)
          = x :: y :: ys := by simp [insertS, hle]
      rw [hred, List.filter_cons, List.filter_cons]
      simp [hx]
    | false =>
      have hky : k y < k x := by
        have := of_decide_eq_false hle; omega
      have hyv : ¬ (k y = v) := by omega
      have hred : insertS (fun a b => decide (k a ≤ k b)) x (y :: ys)
          = y :: insertS (fun a b => decide (k a ≤ k b)) x ys := by
        simp [insertS, hle]
      rw [hred, List.filter_cons, List.filter_cons]
      simp [hyv, ih]

theorem filter_insertS_neKey {α : Type} (k : α → Nat) (v : Nat) (x : α)
    (hx : ¬ (k x = v)) :
    ∀ l : List α,
      (insertS (fun a b => k a ≤ k b) x l).filter (fun a => k a = v)
        = l.filter (fun a => k a = v) := by
  intro l
  induction l with
  | nil => simp [insertS, List.filter_cons, hx]
  | cons y ys ih =>
    cases hle : (decide (k x ≤ k y)) with
    | true =>
      have hred : insertS (fun a b => decide (k a ≤ k b)) x (y :: ys)
          = x :: y :: ys := by simp [insertS, hle]
      rw [hred, List.filter_cons]
      simp [hx]
    | false =>
      have hred : insertS (fun a b => decide (k a ≤ k b)) x (y :: ys)
          = y :: insertS (fun a b => decide (k a ≤ k b)) x ys := by
        simp [insertS, hle]
      rw [hred, List.filter_cons, List.filter_cons]
      simp [ih]

/-- Stability of the Python sort: the subsequence of elements sharing one
key value is unchanged by sorting. -/
theorem filter_sortByKey {α : Type} (k : α → Nat) (v : Nat) :
    ∀ l : List α,
      (sortByKey k l).filter (fun a => k a = v)
        = l.filter (fun a => k a = v) := by
  intro l
  induction l with
  | nil => rfl
  | cons x xs ih =>
    by_cases hx : k x = v
    · have hxt : (decide (k x = v)) = true := decide_eq_true hx
      simp only [sortByKey, sortS, filter_insertS_eqKey k v x hx,
        List.filter_cons, hxt, if_true]
      exact congrArg (x :: ·) ih
    · simp only [sortByKey, sortS, filter_insertS_neKey k v x hx,
        List.filter_cons]
      have : (decide (k x = v)) = false := decide_eq_false hx
      simp only [this, Bool.false_eq_true, if_false]
      exact ih

/-! ### Identity resolver (`MemoryAggregator._handle_pid_duplication`)

`pid_cmd_mapping` and `pid_counters` are Python dicts; modelled as
insertion-ordered association lists with overwrite-in-place update. -/

def lookupA {κ α : Type} [DecidableEq κ] : List (κ × α) → κ → Option α
  | [], _ => none
  | (k, v) :: rest, p => if k = p then some v else lookupA rest p

def setA {κ α : Type} [DecidableEq κ] : List (κ × α) → κ → α → List (κ × α)
  | [], p, v => [(p, v)]
  | (k, w) :: rest, p, v =>
    if k = p then (k, v) :: rest else (k, w) :: setA rest p v

theorem lookupA_setA_self {κ α : Type} [DecidableEq κ] (p : κ) (v : α) :
    ∀ l : List (κ × α), lookupA (setA l p v) p = some v := by
  intro l
  induction l with
  | nil => simp [setA, lookupA]
  | cons e rest ih =>
    obtain ⟨k, w⟩ := e
    by_cases hk : k = p
    · simp [setA, hk, lookupA]
    · simp [setA, hk, lookupA, ih]

theorem lookupA_setA_ne {κ α : Type} [DecidableEq κ] (p q : κ) (v : α)
    (hpq : p ≠ q) :
    ∀ l : List (κ × α), lookupA (setA l p v) q = lookupA l q := by
  intro l
  induction l with
  | nil => simp [setA, lookupA, hpq]
  | cons e rest ih =>
    obtain ⟨k, w⟩ := e
    by_cases hk : k = p
    · subst hk; simp [setA, lookupA, hpq, ih]
    · simp [setA, hk, lookupA, ih]

/-- Resolver state: the two dicts owned by `MemoryAggregator`. -/
structure RState where
  pid_cmd_mapping : List (Nat × Str)
  pid_counters : List (Nat × Nat)
deriving Repr

def RState.init : RState := ⟨[], []⟩

/-- Embeds `MemoryAggregator._handle_pid_duplication(pid, cmd)`: returns the series
key and the updated resolver state. -/
def resolve (s : RState) (pid : Nat) (cmd : Str) : Str × RState :=
  match lookupA s.pid_cmd_mapping pid with
  | none =>
    (natToDecimal pid,
     { s with pid_cmd_mapping := setA s.pid_cmd_mapping pid cmd })
  | some c =>
    if c = cmd then (natToDecimal pid, s)
    else
      let k := match lookupA s.pid_counters pid with
        | none => 2
        | some n => n + 1
      (mkKey pid k,
       { pid_cmd_mapping := setA s.pid_cmd_mapping pid cmd,
         pid_counters := setA s.pid_counters pid k })

/-- Resolve a sequence of `(pid, cmd)` requests, collecting the series keys. -/
def resolveList (s : RState) : List (Nat × Str) → List Str × RState
  | [] => ([], s)
  | (p, c) :: rest =>
    let r := resolve s p c
    let rs := resolveList r.2 rest
    (r.1 :: rs.1, rs.2)

/-- A resolution of a different PID touches neither table entry of `p`. -/
theorem resolve_preserves_ne (s : RState) (q : Nat) (c : Str) (p : Nat)
    (hqp : q ≠ p) :
    lookupA (resolve s q c).2.pid_cmd_mapping p = lookupA s.pid_cmd_mapping p ∧
    lookupA (resolve s q c).2.pid_counters p = lookupA s.pid_counters p := by
  unfold resolve
  cases hm : lookupA s.pid_cmd_mapping q with
  | none => simp [lookupA_setA_ne q p _ hqp]
  | some cm =>
    by_cases hc : cm = c
    · simp [hc]
    · simp [hc, lookupA_setA_ne q p _ hqp]

theorem resolveList_preserves_ne (p : Nat) :
    ∀ (l : List (Nat × Str)) (s : RState), (∀ e ∈ l, e.1 ≠ p) →
      lookupA (resolveList s l).2.pid_cmd_mapping p
          = lookupA s.pid_cmd_mapping p ∧
      lookupA (resolveList s l).2.pid_counters p
          = lookupA s.pid_counters p := by
  intro l
  induction l with
  | nil => intro s _; exact ⟨rfl, rfl⟩
  | cons e rest ih =>
    intro s hl
    obtain ⟨q, c⟩ := e
    have hqp : q ≠ p := hl (q, c) (List.mem_cons_self _ _)
    have h1 := resolve_preserves_ne s q c p hqp
    have h2 := ih (resolve s q c).2 (fun e he => hl e (List.mem_cons_of_mem _ he))
    simp only [resolveList]
    exact ⟨h2.1.trans h1.1, h2.2.trans h1.2⟩

theorem resolveList_length (l : List (Nat × Str)) :
    ∀ s : RState, (resolveList s l).1.length = l.length := by
  induction l with
  | nil => intro s; rfl
  | cons e rest ih =>
    intro s
    obtain ⟨p, c⟩ := e
    simp [resolveList, ih]

theorem resolveList_append (l1 l2 : List (Nat × Str)) :
    ∀ s : RState,
      resolveList s (l1 ++ l2)
        = ((resolveList s l1).1 ++ (resolveList (resolveList s l1).2 l2).1,
           (resolveList (resolveList s l1).2 l2).2) := by
  induction l1 with
  | nil => intro s; rfl
  | cons e rest ih =>
    intro s
    obtain ⟨p, c⟩ := e
    simp [resolveList, ih]

/-! ### First-occurrence deduplication

`dedupF l` keeps the first occurrence of each element of `l`, in order.
This is the key order of a Python dict populated by repeated
`d.setdefault`-style inserts, as in `_group_by_time_interval` and
`_generate_candles`. -/

def dedupF {α : Type} [DecidableEq α] : List α → List α
  | [] => []
  | x :: xs => x :: dedupF (xs.filter (fun y => y ≠ x))
termination_by l => l.length
decreasing_by
  simp only [List.length_cons]
  exact Nat.lt_succ_of_le (List.length_filter_le _ _)

theorem dedupF_nil {α : Type} [DecidableEq α] : dedupF ([] : List α) = [] := by
  simp [dedupF]

theorem dedupF_cons {α : Type} [DecidableEq α] (x : α) (xs : List α) :
    dedupF (x :: xs) = x :: dedupF (xs.filter (fun y => y ≠ x)) := by
  simp [dedupF]

theorem mem_dedupF {α : Type} [DecidableEq α] :
    ∀ (l : List α) (a : α), a ∈ dedupF l ↔ a ∈ l := by
  have H : ∀ (n : Nat) (l : List α), l.length ≤ n →
      ∀ a, a ∈ dedupF l ↔ a ∈ l := by
    intro n
    induction n with
    | zero =>
      intro l hl a
      cases l with
      | nil => simp [dedupF_nil]
      | cons x xs => simp at hl
    | succ n ih =>
      intro l hl a
      cases l with
      | nil => simp [dedupF_nil]
      | cons x xs =>
        rw [dedupF_cons]
        have hlen : (xs.filter (fun y => y ≠ x)).length ≤ n := by
          have := List.length_filter_le (fun y => y ≠ x) xs
          simp only [List.length_cons] at hl
          omega
        by_cases hax : a = x
        · simp [hax]
        · rw [List.mem_cons, List.mem_cons, ih _ hlen a]
          simp only [List.mem_filter, hax, false_or, decide_eq_true_eq, ne_eq]
          constructor
          · exact fun ⟨h1, _⟩ => h1
          · exact fun h1 => ⟨h1, not_false⟩
  exact fun l => H l.length l le_rfl

theorem filter_filter_comm {α : Type} (p q : α → Bool) (l : List α) :
    (l.filter p).filter q = (l.filter q).filter p := by
  induction l with
  | nil => rfl
  | cons x xs ih =>
    cases hp : p x <;> cases hq : q x <;>
      simp [List.filter_cons, hp, hq, ih]

theorem dedupF_filter {α : Type} [DecidableEq α] (q : α → Bool) :
    ∀ l : List α, (dedupF l).filter q = dedupF (l.filter q) := by
  have H : ∀ (n : Nat) (l : List α), l.length ≤ n →
      (dedupF l).filter q = dedupF (l.filter q) := by
    intro n
    induction n with
    | zero =>
      intro l hl
      cases l with
      | nil => simp [dedupF_nil]
      | cons x xs => simp at hl
    | succ n ih =>
      intro l hl
      cases l with
      | nil => simp [dedupF_nil]
      | cons x xs =>
        have hlen : (xs.filter (fun y => y ≠ x)).length ≤ n := by
          have := List.length_filter_le (fun y => y ≠ x) xs
          simp only [List.length_cons] at hl
          omega
        cases hq : q x with
        | true =>
          rw [dedupF_cons, List.filter_cons, hq, if_pos rfl, List.filter_cons,
            hq, if_pos rfl, dedupF_cons, ih _ hlen, filter_filter_comm]
        | false =>
          rw [dedupF_cons, List.filter_cons, hq, List.filter_cons, hq]
          simp only [Bool.false_eq_true, if_false]
          rw [ih _ hlen, filter_filter_comm]
          have hfx : (xs.filter q).filter (fun y => y ≠ x) = xs.filter q := by
            apply List.filter_eq_self.mpr
            intro a ha
            have hqa : q a = true := List.of_mem_filter ha
            simp only [decide_eq_true_eq, ne_eq]
            intro hax
            rw [hax, hq] at hqa
            exact Bool.false_ne_true hqa
          rw [hfx]
  exact fun l => H l.length l le_rfl

theorem dedupF_append_mem {α : Type} [DecidableEq α] (x : α) :
    ∀ l : List α, x ∈ l → dedupF (l ++ [x]) = dedupF l := by
  have H : ∀ (n : Nat) (l : List α), l.length ≤ n →
      x ∈ l → dedupF (l ++ [x]) = dedupF l := by
    intro n
    induction n with
    | zero =>
      intro l hl hx
      cases l with
      | nil => simp at hx
      | cons y ys => simp at hl
    | succ n ih =>
      intro l hl hx
      cases l with
      | nil => simp at hx
      | cons y ys =>
        rw [List.cons_append, dedupF_cons, dedupF_cons, List.filter_append]
        have hlen : (ys.filter (fun z => z ≠ y)).length ≤ n := by
          have := List.length_filter_le (fun z => z ≠ y) ys
          simp only [List.length_cons] at hl
          omega
        by_cases hxy : x = y
        · subst hxy
          simp [List.filter_cons]
        · have hxmem : x ∈ ys := by
            rcases List.mem_cons.mp hx with h | h
            · exact absurd h hxy
            · exact h
          have hkeep : List.filter (fun z => z ≠ y) [x] = [x] := by
            simp [List.filter_cons, hxy]
          rw [hkeep]
          have hxf : x ∈ ys.filter (fun z => z ≠ y) :=
            List.mem_filter.mpr ⟨hxmem, by simp [hxy]⟩
          rw [ih _ hlen hxf]
  exact fun l => H l.length l le_rfl

theorem dedupF_append_not_mem {α : Type} [DecidableEq α] (x : α) :
    ∀ l : List α, x ∉ l → dedupF (l ++ [x]) = dedupF l ++ [x] := by
  have H : ∀ (n : Nat) (l : List α), l.length ≤ n →
      x ∉ l → dedupF (l ++ [x]) = dedupF l ++ [x] := by
    intro n
    induction n with
    | zero =>
      intro l hl hx
      cases l with
      | nil => simp [dedupF_cons, dedupF_nil]
      | cons y ys => simp at hl
    | succ n ih =>
      intro l hl hx
      cases l with
      | nil => simp [dedupF_cons, dedupF_nil]
      | cons y ys =>
        rw [List.cons_append, dedupF_cons, dedupF_cons, List.filter_append]
        have hxy : x ≠ y := fun h => hx (h ▸ List.mem_cons_self y ys)
        have hkeep : List.filter (fun z => z ≠ y) [x] = [x] := by
          simp [List.filter_cons, hxy]
        rw [hkeep]
        have hlen : (ys.filter (fun z => z ≠ y)).length ≤ n := by
          have := List.length_filter_le (fun z => z ≠ y) ys
          simp only [List.length_cons] at hl
          omega
        have hxf : x ∉ ys.filter (fun z => z ≠ y) := fun hmem =>
          hx (List.mem_cons_of_mem y (List.mem_of_mem_filter hmem))
        rw [ih _ hlen hxf, List.cons_append]
  exact fun l => H l.length l le_rfl

theorem dedupF_map_dedupF {α β : Type} [DecidableEq α] [DecidableEq β]
    (f : α → β) :
    ∀ l : List α, dedupF ((dedupF l).map f) = dedupF (l.map f) := by
  have H : ∀ (n : Nat) (l : List α), l.length ≤ n →
      dedupF ((dedupF l).map f) = dedupF (l.map f) := by
    intro n
    induction n with
    | zero =>
      intro l hl
      cases l with
      | nil => simp [dedupF_nil]
      | cons x xs => simp at hl
    | succ n ih =>
      intro l hl
      cases l with
      | nil => simp [dedupF_nil]
      | cons x xs =>
        rw [dedupF_cons, List.map_cons, List.map_cons, dedupF_cons, dedupF_cons]
        congr 1
        have hxslen : xs.length ≤ n := by
          simp only [List.length_cons] at hl
          omega
        have hlen1 : (xs.filter (fun y => y ≠ x)).length ≤ n :=
          le_trans (List.length_filter_le _ _) hxslen
        have hlen2 : (xs.filter (fun y => f y ≠ f x)).length ≤ n :=
          le_trans (List.length_filter_le _ _) hxslen
        have hfuse : (xs.filter (fun y => f y ≠ f x)).filter (fun y => y ≠ x)
            = xs.filter (fun y => f y ≠ f x) := by
          apply List.filter_eq_self.mpr
          intro a ha
          have hfa := List.of_mem_filter ha
          simp only [decide_eq_true_eq, ne_eq] at hfa ⊢
          intro hax
          exact hfa (hax ▸ rfl)
        calc dedupF (((dedupF (xs.filter (fun y => y ≠ x))).map f).filter
                (fun z => z ≠ f x))
            = dedupF (((dedupF (xs.filter (fun y => y ≠ x))).filter
                (fun y => f y ≠ f x)).map f) := by
              rw [List.filter_map]; rfl
          _ = dedupF ((dedupF ((xs.filter (fun y => y ≠ x)).filter
                (fun y => f y ≠ f x))).map f) := by
              rw [dedupF_filter]
          _ = dedupF ((dedupF (xs.filter (fun y => f y ≠ f x))).map f) := by
              rw [filter_filter_comm, hfuse]
          _ = dedupF ((xs.filter (fun y => f y ≠ f x)).map f) :=
              ih _ hlen2
          _ = dedupF ((xs.map f).filter (fun z => z ≠ f x)) := by
              rw [List.filter_map]; rfl
  exact fun l => H l.length l le_rfl

/-! ### Resolver emission invariant

For each raw PID `p`, the distinct series keys the resolver has emitted,
in order of first emission, are `str(p), "p(2)", …, "p(k)"` where `k` is
the current counter. -/

theorem dedupF_eq_nil_iff {α : Type} [DecidableEq α] (l : List α) :
    dedupF l = [] ↔ l = [] := by
  cases l with
  | nil => simp [dedupF_nil]
  | cons x xs => simp [dedupF_cons]

/-- The value `pid_counters[p] - 1` interpreted as a chain length (0 when absent). -/
def counterLen (s : RState) (p : Nat) : Nat :=
  match lookupA s.pid_counters p with
  | none => 0
  | some k => k - 1

/-- The series keys minted so far for raw PID `p`, in mint order. -/
def chainOf (s : RState) (p : Nat) : List Str :=
  match lookupA s.pid_cmd_mapping p with
  | none => []
  | some _ => natToDecimal p :: (List.range' 2 (counterLen s p)).map (mkKey p)

def ResolverInv (s : RState) (outs : List Str) : Prop :=
  ∀ p : Nat,
    dedupF (outs.filter (fun o => extractOriginalPid o = p)) = chainOf s p ∧
    (∀ k, lookupA s.pid_counters p = some k →
      2 ≤ k ∧ lookupA s.pid_cmd_mapping p ≠ none)

theorem resolverInv_init : ResolverInv RState.init [] := by
  intro p
  refine ⟨?_, ?_⟩
  · simp [dedupF_nil, chainOf, RState.init, lookupA]
  · intro k hk
    simp [RState.init, lookupA] at hk

theorem resolve_inv (s : RState) (outs : List Str) (q : Nat) (c : Str)
    (hinv : ResolverInv s outs) :
    ResolverInv (resolve s q c).2 (outs ++ [(resolve s q c).1]) := by
  intro p
  obtain ⟨hchain, hcnt⟩ := hinv p
  by_cases hpq : p = q
  · subst hpq
    cases hm : lookupA s.pid_cmd_mapping p with
    | none =>
      -- first sighting of p: emits str(p), records the command
      have hout : (resolve s p c).1 = natToDecimal p := by
        simp [resolve, hm]
      have hst : (resolve s p c).2 =
          { s with pid_cmd_mapping := setA s.pid_cmd_mapping p c } := by
        simp [resolve, hm]
      have hcnone : lookupA s.pid_counters p = none := by
        cases hck : lookupA s.pid_counters p with
        | none => rfl
        | some k => exact absurd hm (hcnt k hck).2
      have hfilter_nil :
          outs.filter (fun o => extractOriginalPid o = p) = [] := by
        rw [← dedupF_eq_nil_iff, hchain]
        simp [chainOf, hm]
      refine ⟨?_, ?_⟩
      · rw [hout, hst, List.filter_append, hfilter_nil, List.nil_append]
        simp only [List.filter_cons, List.filter_nil,
          extractOriginalPid_natToDecimal, decide_eq_true_eq]
        simp only [eq_self_iff_true, if_true]
        simp only [chainOf, counterLen, lookupA_setA_self, hcnone]
        simp [dedupF_cons, dedupF_nil]
      · intro k hk
        rw [hst] at hk
        simp only at hk
        rw [hcnone] at hk
        exact absurd hk (by simp)
    | some cm =>
      by_cases hcm : cm = c
      · -- same command: emits str(p), state unchanged
        have hout : (resolve s p c).1 = natToDecimal p := by
          simp [resolve, hm, hcm]
        have hst : (resolve s p c).2 = s := by
          simp [resolve, hm, hcm]
        refine ⟨?_, ?_⟩
        swap
        · intro k hk
          rw [hst] at hk ⊢
          exact hcnt k hk
        rw [hout, hst, List.filter_append]
        simp only [List.filter_cons, List.filter_nil,
          extractOriginalPid_natToDecimal, decide_eq_true_eq]
        simp only [eq_self_iff_true, if_true]
        have hbase_mem : natToDecimal p ∈
            outs.filter (fun o => extractOriginalPid o = p) := by
          rw [← mem_dedupF, hchain]
          simp [chainOf, hm]
        rw [dedupF_append_mem _ _ hbase_mem, hchain]
      · -- collision: emits a fresh suffixed key and bumps the counter
        cases hck : lookupA s.pid_counters p with
        | none =>
          have hout : (resolve s p c).1 = mkKey p 2 := by
            simp [resolve, hm, hcm, hck]
          have hst : (resolve s p c).2 =
              { pid_cmd_mapping := setA s.pid_cmd_mapping p c,
                pid_counters := setA s.pid_counters p 2 } := by
            simp [resolve, hm, hcm, hck]
          have hchain_old : dedupF
              (outs.filter (fun o => extractOriginalPid o = p))
              = [natToDecimal p] := by
            rw [hchain]
            simp [chainOf, hm, counterLen, hck]
          have hnot : mkKey p 2 ∉
              outs.filter (fun o => extractOriginalPid o = p) := by
            rw [← mem_dedupF, hchain_old]
            simp [mkKey_ne_natToDecimal]
          refine ⟨?_, ?_⟩
          · rw [hout, hst, List.filter_append]
            simp only [List.filter_cons, List.filter_nil,
              extractOriginalPid_mkKey, decide_eq_true_eq]
            simp only [eq_self_iff_true, if_true]
            rw [dedupF_append_not_mem _ _ hnot, hchain_old]
            simp only [chainOf, counterLen, lookupA_setA_self]
            norm_num [List.range'_one]
          · intro k hk
            rw [hst] at hk ⊢
            simp only [lookupA_setA_self, Option.some.injEq] at hk
            subst hk
            exact ⟨le_refl 2, by simp [lookupA_setA_self]⟩
        | some n =>
          obtain ⟨hn2, _⟩ := hcnt n hck
          have hout : (resolve s p c).1 = mkKey p (n + 1) := by
            simp [resolve, hm, hcm, hck]
          have hst : (resolve s p c).2 =
              { pid_cmd_mapping := setA s.pid_cmd_mapping p c,
                pid_counters := setA s.pid_counters p (n + 1) } := by
            simp [resolve, hm, hcm, hck]
          have hchain_old : dedupF
              (outs.filter (fun o => extractOriginalPid o = p))
              = natToDecimal p
                :: (List.range' 2 (n - 1)).map (mkKey p) := by
            rw [hchain]
            simp [chainOf, hm, counterLen, hck]
          have hnot : mkKey p (n + 1) ∉
              outs.filter (fun o => extractOriginalPid o = p) := by
            rw [← mem_dedupF, hchain_old]
            simp only [List.mem_cons, List.mem_map, List.mem_range'_1]
            rintro (h | ⟨j, ⟨hj2, hjn⟩, hjk⟩)
            · exact mkKey_ne_natToDecimal p (n + 1) p h
            · have := mkKey_counter_inj p j (n + 1) hjk
              omega
          refine ⟨?_, ?_⟩
          · rw [hout, hst, List.filter_append]
            simp only [List.filter_cons, List.filter_nil,
              extractOriginalPid_mkKey, decide_eq_true_eq]
            simp only [eq_self_iff_true, if_true]
            rw [dedupF_append_not_mem _ _ hnot, hchain_old]
            simp only [chainOf, counterLen, lookupA_setA_self]
            have hrange : List.range' 2 (n + 1 - 1)
                = List.range' 2 (n - 1) ++ [n + 1] := by
              have h1 : n + 1 - 1 = (n - 1) + 1 := by omega
              rw [h1, List.range'_concat]
              congr 2
              omega
            rw [hrange, List.map_append]
            simp
          · intro k hk
            rw [hst] at hk ⊢
            simp only [lookupA_setA_self, Option.some.injEq] at hk
            subst hk
            exact ⟨by omega, by simp [lookupA_setA_self]⟩
  · -- p ≠ q: neither the new output nor the state changes p's view
    have hpq' : q ≠ p := fun h => hpq h.symm
    have hpres := resolve_preserves_ne s q c p hpq'
    have houtp : (decide (extractOriginalPid (resolve s q c).1 = p)) = false := by
      unfold resolve
      cases hm : lookupA s.pid_cmd_mapping q with
      | none => simp [extractOriginalPid_natToDecimal, hpq']
      | some cm =>
        by_cases hcm : cm = c
        · simp [hcm, extractOriginalPid_natToDecimal, hpq']
        · simp [hcm, extractOriginalPid_mkKey, hpq']
    refine ⟨?_, ?_⟩
    · rw [List.filter_append]
      simp only [List.filter_cons, List.filter_nil, houtp,
        Bool.false_eq_true, if_false, List.append_nil]
      rw [hchain]
      simp only [chainOf, counterLen, hpres.1, hpres.2]
    · intro k hk
      rw [hpres.2] at hk
      obtain ⟨h1, h2⟩ := hcnt k hk
      exact ⟨h1, by rw [hpres.1]; exact h2⟩

theorem resolveList_inv :
    ∀ (l : List (Nat × Str)) (s : RState) (outs : List Str),
      ResolverInv s outs →
      ResolverInv (resolveList s l).2 (outs ++ (resolveList s l).1) := by
  intro l
  induction l with
  | nil => intro s outs h; simpa [resolveList] using h
  | cons e rest ih =>
    intro s outs h
    obtain ⟨q, c⟩ := e
    simp only [resolveList]
    have h1 := resolve_inv s outs q c h
    have h2 := ih (resolve s q c).2 (outs ++ [(resolve s q c).1]) h1
    simpa [List.append_assoc] using h2

/-- Main invariant at the end of a full resolution run. -/
theorem resolveList_chain (l : List (Nat × Str)) :
    ResolverInv (resolveList RState.init l).2 (resolveList RState.init l).1 := by
  have := resolveList_inv l RState.init [] resolverInv_init
  simpa using this

/-! ### Data model: samples, snapshot records, files

`ProcessDataPoint` mirrors the Python class (its `pid` field holds the
*normalized* series-key string, as in the source). A JSON item is either a
dict (whose `pid`/`cmd`/`rss` keys may individually be absent) or a
non-dict value, on which `item.get` raises `AttributeError`. -/

structure ProcessDataPoint where
  timestamp : PyDateTime
  pid : Str
  cmd : Str
  rss : Int
deriving DecidableEq, Repr

inductive JItem where
  | obj (pid : Option Nat) (cmd : Option Str) (rss : Option Int)
  | malformed
deriving DecidableEq, Repr

def JItem.isObj : JItem → Bool
  | .obj _ _ _ => true
  | .malformed => false

/-- One snapshot record (one JSON file's content). `timestamp = none` models
a record whose structure or embedded timestamp fails to parse. -/
structure SnapRecord where
  timestamp : Option PyDateTime
  items : List JItem
deriving DecidableEq, Repr

/-- One file on disk: `ftime` is the filename-derived time (`none` when the
filename does not parse), `record` the JSON content (`none` when
`json.load` fails). -/
structure FileEntry where
  ftime : Option PyDateTime
  record : Option SnapRecord
deriving DecidableEq, Repr

/-- Embeds `MemoryAggregator._load_json_files`: keep files whose filename-derived
time satisfies `start_time <= file_time <= end_time` (both ends inclusive);
files that fail to parse are skipped with a warning. -/
def loadJsonFiles (startTime endTime : PyDateTime) (files : List FileEntry) :
    List SnapRecord :=
  files.filterMap (fun f =>
    match f.ftime with
    | none => none
    | some t =>
      if dtLe startTime t && dtLe t endTime then f.record else none)

/-- The inner item loop of `_extract_process_data` for one record.
A dict item without a `pid` key is skipped silently (`if pid is not None`);
a non-dict item raises inside the loop, so the record's *remaining* items
are abandoned (the exception is caught at record level), while samples
already appended survive. -/
def processItems (s : RState) (ts : PyDateTime) :
    List JItem → List ProcessDataPoint × RState
  | [] => ([], s)
  | .malformed :: _ => ([], s)
  | .obj pid? cmd? rss? :: rest =>
    match pid? with
    | none => processItems s ts rest
    | some pid =>
      let cmd := cmd?.getD []
      let r := resolve s pid cmd
      let tl := processItems r.2 ts rest
      (⟨ts, r.1, cmd, rss?.getD 0⟩ :: tl.1, tl.2)

/-- Embeds `MemoryAggregator._extract_process_data`: records whose timestamp fails
to parse are skipped entirely with a warning; others contribute their
items' samples in order. -/
def extractProcessData (s : RState) :
    List SnapRecord → List ProcessDataPoint × RState
  | [] => ([], s)
  | r :: rest =>
    match r.timestamp with
    | none => extractProcessData s rest
    | some ts =>
      let pr := processItems s ts r.items
      let tl := extractProcessData pr.2 rest
      (pr.1 ++ tl.1, tl.2)

/-- The `(pid, cmd)` resolution requests a record's item list generates. -/
def callsOfItems (items : List JItem) : List (Nat × Str) :=
  (items.takeWhile JItem.isObj).filterMap (fun i =>
    match i with
    | .obj (some p) cm _ => some (p, cm.getD [])
    | .obj none _ _ => none
    | .malformed => none)

def callsOfRecords : List SnapRecord → List (Nat × Str)
  | [] => []
  | r :: rest =>
    (match r.timestamp with
     | none => []
     | some _ => callsOfItems r.items) ++ callsOfRecords rest

theorem processItems_spec (ts : PyDateTime) :
    ∀ (items : List JItem) (s : RState),
      (processItems s ts items).1.map (fun x => x.pid)
          = (resolveList s (callsOfItems items)).1 ∧
      (processItems s ts items).2 = (resolveList s (callsOfItems items)).2 := by
  intro items
  induction items with
  | nil => intro s; exact ⟨rfl, rfl⟩
  | cons i rest ih =>
    intro s
    cases i with
    | malformed =>
      simp [processItems, callsOfItems, List.takeWhile_cons, JItem.isObj,
        resolveList]
    | obj pid? cmd? rss? =>
      cases pid? with
      | none =>
        have h := ih s
        simpa [processItems, callsOfItems, List.takeWhile_cons, JItem.isObj,
          resolveList] using h
      | some pid =>
        have h := ih (resolve s pid (cmd?.getD [])).2
        simp only [processItems, callsOfItems, List.takeWhile_cons,
          JItem.isObj, if_true, List.filterMap_cons, resolveList,
          List.map_cons] at h ⊢
        exact ⟨by rw [h.1], h.2⟩

theorem extractProcessData_spec :
    ∀ (records : List SnapRecord) (s : RState),
      (extractProcessData s records).1.map (fun x => x.pid)
          = (resolveList s (callsOfRecords records)).1 ∧
      (extractProcessData s records).2
          = (resolveList s (callsOfRecords records)).2 := by
  intro records
  induction records with
  | nil => intro s; exact ⟨rfl, rfl⟩
  | cons r rest ih =>
    intro s
    cases hts : r.timestamp with
    | none =>
      have h := ih s
      simp only [extractProcessData, hts, callsOfRecords, List.nil_append]
      exact h
    | some ts =>
      have hpi := processItems_spec ts r.items s
      simp only [extractProcessData, hts, callsOfRecords,
        resolveList_append, List.map_append]
      rw [hpi.1, hpi.2]
      have hrest := ih (resolveList s (callsOfItems r.items)).2
      rw [hrest.1, hrest.2]
      exact ⟨rfl, rfl⟩

/-! ### Time bucketing and candle building -/

/-- Insert into an insertion-ordered multimap: Python
`if key not in d: d[key] = []` followed by `d[key].append(v)`. -/
def addToGroups {κ ν : Type} [DecidableEq κ] :
    List (κ × List ν) → κ → ν → List (κ × List ν)
  | [], k, v => [(k, [v])]
  | (k', vs) :: rest, k, v =>
    if k' = k then (k', vs ++ [v]) :: rest
    else (k', vs) :: addToGroups rest k v

/-- Embeds `MemoryAggregator._group_by_time_interval`. -/
def groupByTimeInterval (processData : List ProcessDataPoint)
    (intervalMinutes : Nat) :
    List ((PyDateTime × Str) × List ProcessDataPoint) :=
  processData.foldl
    (fun gs x => addToGroups gs (bucketStart x.timestamp intervalMinutes, x.pid) x)
    []

/-- The Python `CandleData` class, with its zero-initialized OHLC. -/
structure CandleData where
  timestamp : PyDateTime
  open_value : Int
  close_value : Int
  high_value : Int
  low_value : Int
  data_points : List Int
deriving DecidableEq, Repr

def CandleData.new (ts : PyDateTime) : CandleData :=
  { timestamp := ts, open_value := 0, close_value := 0,
    high_value := 0, low_value := 0, data_points := [] }

/-- Embeds `CandleData.add_data_point`: append, then branch on whether this was
the first point. -/
def addDataPoint (c : CandleData) (rss : Int) : CandleData :=
  let dps := c.data_points ++ [rss]
  if dps.length = 1 then
    { c with data_points := dps, open_value := rss, close_value := rss,
             high_value := rss, low_value := rss }
  else
    { c with data_points := dps, close_value := rss,
             high_value := max c.high_value rss,
             low_value := min c.low_value rss }

/-- Python `sorted(data_points, key=lambda x: x.timestamp)`. -/
def sortPointsByTime (pts : List ProcessDataPoint) : List ProcessDataPoint :=
  sortS (fun a b => dtLe a.timestamp b.timestamp) pts

/-- The candle built for one `(bucket, series)` group in
`_generate_candles`: sort the group by timestamp, then feed each point's
`rss` into `add_data_point`. -/
def buildCandle (ts : PyDateTime) (pts : List ProcessDataPoint) : CandleData :=
  (sortPointsByTime pts).foldl (fun c pt => addDataPoint c pt.rss)
    (CandleData.new ts)

def sortCandlesByTime (cs : List CandleData) : List CandleData :=
  sortS (fun a b => dtLe a.timestamp b.timestamp) cs

/-- Embeds `MemoryAggregator._generate_candles`: fold the groups into a
per-series dict of candles, then sort each series' candles by time. -/
def generateCandles
    (groups : List ((PyDateTime × Str) × List ProcessDataPoint)) :
    List (Str × List CandleData) :=
  (groups.foldl (fun cd g => addToGroups cd g.1.2 (buildCandle g.1.1 g.2)) []).map
    (fun e => (e.1, sortCandlesByTime e.2))

theorem addToGroups_keys {κ ν : Type} [DecidableEq κ] (k : κ) (v : ν) :
    ∀ gs : List (κ × List ν),
      (addToGroups gs k v).map (fun e => e.1)
        = if k ∈ gs.map (fun e => e.1) then gs.map (fun e => e.1)
          else gs.map (fun e => e.1) ++ [k] := by
  intro gs
  induction gs with
  | nil => simp [addToGroups]
  | cons e rest ih =>
    obtain ⟨k', vs⟩ := e
    by_cases hk : k' = k
    · subst hk
      simp [addToGroups]
    · have hk2 : ¬ (k = k') := fun h => hk h.symm
      simp only [addToGroups, hk, if_false, List.map_cons, ih,
        List.mem_cons, hk2, false_or]
      by_cases hmem : k ∈ rest.map (fun e => e.1)
      · simp [hmem]
      · simp [hmem]

/-- The key list of the grouping fold is the first-occurrence dedup of the
key stream, continuing from the accumulator's keys. -/
theorem foldl_addToGroups_keys {κ ν : Type} [DecidableEq κ]
    (key : ν → κ) :
    ∀ (l : List ν) (acc : List (κ × List ν)),
      ((l.foldl (fun gs x => addToGroups gs (key x) x) acc).map (fun e => e.1))
        = acc.map (fun e => e.1)
          ++ dedupF ((l.map key).filter
              (fun k => k ∉ acc.map (fun e => e.1))) := by
  intro l
  induction l with
  | nil => intro acc; simp [dedupF_nil]
  | cons x xs ih =>
    intro acc
    simp only [List.foldl_cons, List.map_cons, List.filter_cons]
    by_cases hmem : key x ∈ acc.map (fun e => e.1)
    · have hdec : (decide (key x ∉ acc.map (fun e => e.1))) = false := by
        simp [hmem]
      rw [hdec]
      simp only [Bool.false_eq_true, if_false]
      rw [ih (addToGroups acc (key x) x)]
      rw [addToGroups_keys, if_pos hmem]
    · have hdec : (decide (key x ∉ acc.map (fun e => e.1))) = true := by
        simp [hmem]
      rw [hdec, if_pos rfl]
      rw [ih (addToGroups acc (key x) x)]
      rw [addToGroups_keys, if_neg hmem]
      rw [dedupF_cons, List.append_assoc, List.singleton_append]
      congr 2
      rw [List.filter_filter]
      congr 1
      apply List.filter_congr
      intro a ha
      by_cases h1 : a ∈ acc.map (fun e => e.1) <;> by_cases h2 : a = key x <;>
        simp [h1, h2, List.mem_append]

/-- Keys of the grouping fold only depend on the key stream. -/
theorem foldl_addToGroups_keys_val {κ μ ν : Type} [DecidableEq κ]
    (key : ν → κ) (val : ν → μ) :
    ∀ (l : List ν) (acc : List (κ × List μ)),
      ((l.foldl (fun gs x => addToGroups gs (key x) (val x)) acc).map
          (fun e => e.1))
        = acc.map (fun e => e.1)
          ++ dedupF ((l.map key).filter
              (fun k => k ∉ acc.map (fun e => e.1))) := by
  intro l
  induction l with
  | nil => intro acc; simp [dedupF_nil]
  | cons x xs ih =>
    intro acc
    simp only [List.foldl_cons, List.map_cons, List.filter_cons]
    by_cases hmem : key x ∈ acc.map (fun e => e.1)
    · have hdec : (decide (key x ∉ acc.map (fun e => e.1))) = false := by
        simp [hmem]
      rw [hdec]
      simp only [Bool.false_eq_true, if_false]
      rw [ih (addToGroups acc (key x) (val x))]
      rw [addToGroups_keys, if_pos hmem]
    · have hdec : (decide (key x ∉ acc.map (fun e => e.1))) = true := by
        simp [hmem]
      rw [hdec, if_pos rfl]
      rw [ih (addToGroups acc (key x) (val x))]
      rw [addToGroups_keys, if_neg hmem]
      rw [dedupF_cons, List.append_assoc, List.singleton_append]
      congr 2
      rw [List.filter_filter]
      congr 1
      apply List.filter_congr
      intro a ha
      by_cases h1 : a ∈ acc.map (fun e => e.1) <;> by_cases h2 : a = key x <;>
        simp [h1, h2, List.mem_append]

theorem groupByTimeInterval_keys (pd : List ProcessDataPoint) (iv : Nat) :
    (groupByTimeInterval pd iv).map (fun e => e.1)
      = dedupF (pd.map (fun x => (bucketStart x.timestamp iv, x.pid))) := by
  unfold groupByTimeInterval
  rw [foldl_addToGroups_keys_val
    (fun x => (bucketStart x.timestamp iv, x.pid)) (fun x => x) pd []]
  simp

theorem generateCandles_keys
    (groups : List ((PyDateTime × Str) × List ProcessDataPoint)) :
    (generateCandles groups).map (fun e => e.1)
      = dedupF (groups.map (fun g => g.1.2)) := by
  unfold generateCandles
  rw [List.map_map]
  have h := foldl_addToGroups_keys_val
    (fun g : (PyDateTime × Str) × List ProcessDataPoint => g.1.2)
    (fun g => buildCandle g.1.1 g.2) groups []
  simp only [List.map_nil, List.nil_append] at h
  have hcomp : ((fun (e : Str × List CandleData) => e.1) ∘
      fun e => (e.1, sortCandlesByTime e.2))
      = (fun (e : Str × List CandleData) => e.1) := rfl
  rw [hcomp, h]
  congr 1
  simp

/-! ### Pivot serialization (`MemoryAggregator.export_to_tsv`) -/

/-- The series axis: `sorted(candle_data.keys(), key=_extract_original_pid)`. -/
def pidListOf (cd : List (Str × List CandleData)) : List Str :=
  sortByKey extractOriginalPid (cd.map (fun e => e.1))

/-- The time axis: the distinct candle timestamps, sorted ascending
(Python builds a `set`, then `sorted(...)`). -/
def allTimestamps (cd : List (Str × List CandleData)) : List PyDateTime :=
  sortS dtLe (dedupF (((cd.map (fun e => e.2)).flatten).map
    (fun c => c.timestamp)))

def pad2 (n : Nat) : Str :=
  if n < 10 then '0' :: natToDecimal n else natToDecimal n

/-- Embeds `timestamp.strftime("%Y-%m-%d %H:%M:%S")`; the fused `date` ordinal
stands in for the `%Y-%m-%d` part. -/
def formatTs (t : PyDateTime) : Str :=
  natToDecimal t.date ++ ' ' ::
    (pad2 t.hour ++ ':' :: (pad2 t.minute ++ ':' :: pad2 t.second))

/-- Python `str` on an `int`. -/
def intToStr (i : Int) : Str :=
  if i < 0 then '-' :: natToDecimal i.natAbs else natToDecimal i.natAbs

/-- Python `sep.join(cells)`. -/
def joinSep (sep : Str) : List Str → Str
  | [] => []
  | [x] => x
  | x :: y :: rest => x ++ sep ++ joinSep sep (y :: rest)

/-- Header cells: `時間`, then four per-series cells in axis order. -/
def headerCells (pidList : List Str) : List Str :=
  ("時間".data) :: (pidList.map (fun pid =>
    [pid ++ ("_始値".data), pid ++ ("_高値".data),
     pid ++ ("_安値".data), pid ++ ("_終値".data)])).flatten

/-- One data row: formatted time, then per series the candle's
open/high/low/close (or four empty cells when no candle matches). -/
def rowCells (cd : List (Str × List CandleData)) (pidList : List Str)
    (ts : PyDateTime) : List Str :=
  formatTs ts :: (pidList.map (fun pid =>
    match lookupA cd pid with
    | none => [[], [], [], []]
    | some candles =>
      match candles.find? (fun c => decide (c.timestamp = ts)) with
      | none => [[], [], [], []]
      | some c => [intToStr c.open_value, intToStr c.high_value,
                   intToStr c.low_value, intToStr c.close_value])).flatten

/-- One mapping-file row: the series key, a tab, and
`pid_cmd_mapping.get(_extract_original_pid(pid), "unknown")`. -/
def mappingLineFor (mapping : List (Nat × Str)) (key : Str) : Str :=
  key ++ '\t' :: ((lookupA mapping (extractOriginalPid key)).getD
    ("unknown".data))

/-- Python `s.replace(".tsv", "")`: remove every (non-overlapping,
left-to-right) occurrence. -/
def removeTsvAll : Str → Str
  | [] => []
  | c :: rest =>
    if (".tsv".data).isPrefixOf (c :: rest) then removeTsvAll (rest.drop 3)
    else c :: removeTsvAll rest
termination_by s => s.length
decreasing_by
  · simp only [List.length_cons, List.length_drop]
    omega
  · simp only [List.length_cons]
    omega

/-- Embeds `MemoryAggregator.export_to_tsv`, modelled as the pair of
`(file name, file content)` pairs it writes (primary table first, then the
PID mapping file). -/
def exportToTsv (cd : List (Str × List CandleData))
    (mapping : List (Nat × Str)) (outputFile : Str) :
    (Str × Str) × (Str × Str) :=
  let pidList := pidListOf cd
  let sortedTs := allTimestamps cd
  let header := joinSep ("\t".data) (headerCells pidList)
  let rows := sortedTs.map (fun ts => joinSep ("\t".data)
    (rowCells cd pidList ts))
  let tableText := joinSep ("\n".data) (header :: rows)
  let normalized :=
    if (".tsv".data).isSuffixOf outputFile then outputFile
    else outputFile ++ (".tsv".data)
  let baseName := removeTsvAll normalized
  let mappingFile := baseName ++ ("_pid_mapping.tsv".data)
  let mappingText := joinSep ("\n".data)
    (("PID\tCOMMAND".data) :: pidList.map (mappingLineFor mapping))
  ((normalized, tableText), (mappingFile, mappingText))

/-- Embeds `MemoryAggregator.aggregate_to_candles` (returning the resulting
resolver state alongside, since `export_to_tsv` reads
`self.pid_cmd_mapping` afterwards). -/
def aggregateToCandles (files : List FileEntry)
    (startTime endTime : PyDateTime) (intervalMinutes : Nat) :
    List (Str × List CandleData) × RState :=
  let raw := loadJsonFiles startTime endTime files
  let ex := extractProcessData RState.init raw
  (generateCandles (groupByTimeInterval ex.1 intervalMinutes), ex.2)

/-- A whole aggregation invocation: aggregate, then serialize. -/
def aggregateRun (files : List FileEntry) (startTime endTime : PyDateTime)
    (intervalMinutes : Nat) (outputFile : Str) :
    (Str × Str) × (Str × Str) :=
  let a := aggregateToCandles files startTime endTime intervalMinutes
  exportToTsv a.1 a.2.pid_cmd_mapping outputFile

/-- Observable outcome of `bin/aggregate.py`'s `main` after the time range
has been validated: exit code, files written, warnings emitted. -/
structure RunResult where
  exitCode : Nat
  written : List (Str × Str)
  warnings : List Str
deriving Repr

/-- Embeds the `main` flow of `bin/aggregate.py`: on an empty candle set, warn and
`sys.exit(0)` without writing; otherwise write both files and finish
normally (exit code 0). -/
def mainRun (files : List FileEntry) (startTime endTime : PyDateTime)
    (intervalMinutes : Nat) (outputFile : Str) : RunResult :=
  let a := aggregateToCandles files startTime endTime intervalMinutes
  if a.1.isEmpty then
    { exitCode := 0, written := [],
      warnings := [("警告: 指定期間内にデータが見つかりませんでした".data)] }
  else
    let e := exportToTsv a.1 a.2.pid_cmd_mapping outputFile
    { exitCode := 0, written := [e.1, e.2], warnings := [] }

/-! ### OHLC correctness (claim C1) -/

theorem le_foldl_max : ∀ (l : List Int) (a : Int), a ≤ l.foldl max a := by
  intro l
  induction l with
  | nil => intro a; exact le_refl a
  | cons x xs ih =>
    intro a
    exact le_trans (le_max_left a x) (ih (max a x))

theorem mem_le_foldl_max : ∀ (l : List Int) (a b : Int), b ∈ l →
    b ≤ l.foldl max a := by
  intro l
  induction l with
  | nil => intro a b hb; simp at hb
  | cons x xs ih =>
    intro a b hb
    rcases List.mem_cons.mp hb with hb | hb
    · subst hb
      exact le_trans (le_max_right a b) (le_foldl_max xs (max a b))
    · exact ih (max a x) b hb

theorem foldl_max_mem : ∀ (l : List Int) (a : Int),
    l.foldl max a = a ∨ l.foldl max a ∈ l := by
  intro l
  induction l with
  | nil => intro a; exact Or.inl rfl
  | cons x xs ih =>
    intro a
    rcases ih (max a x) with h | h
    · rcases max_choice a x with hm | hm
      · exact Or.inl (by rw [List.foldl_cons, h, hm])
      · exact Or.inr (by rw [List.foldl_cons, h, hm]; exact List.mem_cons_self x xs)
    · exact Or.inr (List.mem_cons_of_mem x h)

theorem foldl_min_le : ∀ (l : List Int) (a : Int), l.foldl min a ≤ a := by
  intro l
  induction l with
  | nil => intro a; exact le_refl a
  | cons x xs ih =>
    intro a
    exact le_trans (ih (min a x)) (min_le_left a x)

theorem foldl_min_le_mem : ∀ (l : List Int) (a b : Int), b ∈ l →
    l.foldl min a ≤ b := by
  intro l
  induction l with
  | nil => intro a b hb; simp at hb
  | cons x xs ih =>
    intro a b hb
    rcases List.mem_cons.mp hb with hb | hb
    · subst hb
      exact le_trans (foldl_min_le xs (min a b)) (min_le_right a b)
    · exact ih (min a x) b hb

theorem foldl_min_mem : ∀ (l : List Int) (a : Int),
    l.foldl min a = a ∨ l.foldl min a ∈ l := by
  intro l
  induction l with
  | nil => intro a; exact Or.inl rfl
  | cons x xs ih =>
    intro a
    rcases ih (min a x) with h | h
    · rcases min_choice a x with hm | hm
      · exact Or.inl (by rw [List.foldl_cons, h, hm])
      · exact Or.inr (by rw [List.foldl_cons, h, hm]; exact List.mem_cons_self x xs)
    · exact Or.inr (List.mem_cons_of_mem x h)

/-- Folding further points into a non-fresh candle: open stays, close
tracks the last value, high/low track max/min. -/
theorem foldl_addDataPoint_props :
    ∀ (l : List Int) (c : CandleData), c.data_points ≠ [] →
      (l.foldl addDataPoint c).open_value = c.open_value ∧
      (l.foldl addDataPoint c).close_value = l.getLastD c.close_value ∧
      (l.foldl addDataPoint c).high_value = l.foldl max c.high_value ∧
      (l.foldl addDataPoint c).low_value = l.foldl min c.low_value ∧
      (l.foldl addDataPoint c).data_points = c.data_points ++ l := by
  intro l
  induction l with
  | nil => intro c hc; simp
  | cons x xs ih =>
    intro c hc
    have hlen : (c.data_points ++ [x]).length ≠ 1 := by
      cases hdp : c.data_points with
      | nil => exact absurd hdp hc
      | cons y ys => simp
    have hstep : addDataPoint c x =
        { c with data_points := c.data_points ++ [x], close_value := x,
                 high_value := max c.high_value x,
                 low_value := min c.low_value x } := by
      unfold addDataPoint
      simp only [hlen, if_false]
    have hne2 : (addDataPoint c x).data_points ≠ [] := by
      rw [hstep]
      simp
    obtain ⟨h1, h2, h3, h4, h5⟩ := ih (addDataPoint c x) hne2
    rw [List.foldl_cons]
    refine ⟨?_, ?_, ?_, ?_, ?_⟩
    · rw [h1, hstep]
    · rw [h2, hstep, List.getLastD_cons]
    · rw [h3, hstep, List.foldl_cons]
    · rw [h4, hstep, List.foldl_cons]
    · rw [h5, hstep]
      simp

/-- C1: for a non-empty group re-sorted ascending by timestamp, the built
candle has open = first rss, close = last rss, high = max, low = min, and
the OHLC validity inequalities follow; a one-sample group collapses all
four values. -/
theorem candle_build_spec (ts : PyDateTime) (pts : List ProcessDataPoint)
    (hne : pts ≠ []) :
    ∃ first last,
      (sortPointsByTime pts).head? = some first ∧
      (sortPointsByTime pts).getLast? = some last ∧
      (buildCandle ts pts).open_value = first.rss ∧
      (buildCandle ts pts).close_value = last.rss ∧
      (∀ p ∈ pts, p.rss ≤ (buildCandle ts pts).high_value) ∧
      (buildCandle ts pts).high_value ∈ pts.map (fun p => p.rss) ∧
      (∀ p ∈ pts, (buildCandle ts pts).low_value ≤ p.rss) ∧
      (buildCandle ts pts).low_value ∈ pts.map (fun p => p.rss) ∧
      (buildCandle ts pts).low_value ≤ (buildCandle ts pts).open_value ∧
      (buildCandle ts pts).open_value ≤ (buildCandle ts pts).high_value ∧
      (buildCandle ts pts).low_value ≤ (buildCandle ts pts).close_value ∧
      (buildCandle ts pts).close_value ≤ (buildCandle ts pts).high_value ∧
      (pts.length = 1 →
        (buildCandle ts pts).open_value = (buildCandle ts pts).high_value ∧
        (buildCandle ts pts).high_value = (buildCandle ts pts).low_value ∧
        (buildCandle ts pts).low_value = (buildCandle ts pts).close_value) := by
  have hlen : (sortPointsByTime pts).length = pts.length := length_sortS _ _
  have hsne : sortPointsByTime pts ≠ [] := by
    intro h
    rw [h] at hlen
    exact hne (List.length_eq_zero.mp hlen.symm)
  obtain ⟨s, tl, hstl⟩ := List.exists_cons_of_ne_nil hsne
  have hmem_iff : ∀ p, p ∈ sortPointsByTime pts ↔ p ∈ pts :=
    fun p => mem_sortS _ pts p
  have hbc : buildCandle ts pts
      = (tl.map (fun p => p.rss)).foldl addDataPoint
          (addDataPoint (CandleData.new ts) s.rss) := by
    unfold buildCandle
    rw [hstl, List.foldl_cons, ← List.foldl_map]
  have hc1 : addDataPoint (CandleData.new ts) s.rss =
      { timestamp := ts, open_value := s.rss, close_value := s.rss,
        high_value := s.rss, low_value := s.rss, data_points := [s.rss] } := by
    unfold addDataPoint CandleData.new
    simp
  have hprops := foldl_addDataPoint_props (tl.map (fun p => p.rss))
    (addDataPoint (CandleData.new ts) s.rss) (by rw [hc1]; simp)
  obtain ⟨hopen, hclose, hhigh, hlow, _⟩ := hprops
  rw [← hbc] at hopen hclose hhigh hlow
  rw [hc1] at hopen hclose hhigh hlow
  simp only at hopen hclose hhigh hlow
  -- identify the last element
  have hs_mem : s ∈ pts := (hmem_iff s).mp (hstl ▸ List.mem_cons_self s tl)
  have htl_mem : ∀ p ∈ tl, p ∈ pts := fun p hp =>
    (hmem_iff p).mp (hstl ▸ List.mem_cons_of_mem s hp)
  have hhigh_ub : ∀ p ∈ pts, p.rss ≤ (buildCandle ts pts).high_value := by
    intro p hp
    rw [hhigh]
    have hps : p ∈ s :: tl := hstl ▸ (hmem_iff p).mpr hp
    rcases List.mem_cons.mp hps with h | h
    · rw [h]; exact le_foldl_max _ _
    · exact mem_le_foldl_max _ _ _ (List.mem_map_of_mem _ h)
  have hhigh_mem : (buildCandle ts pts).high_value ∈ pts.map
      (fun p => p.rss) := by
    rw [hhigh]
    rcases foldl_max_mem (tl.map (fun p => p.rss)) s.rss with h | h
    · rw [h]; exact List.mem_map_of_mem _ hs_mem
    · obtain ⟨q, hq, hqe⟩ := List.mem_map.mp h
      exact hqe ▸ List.mem_map_of_mem _ (htl_mem q hq)
  have hlow_lb : ∀ p ∈ pts, (buildCandle ts pts).low_value ≤ p.rss := by
    intro p hp
    rw [hlow]
    have hps : p ∈ s :: tl := hstl ▸ (hmem_iff p).mpr hp
    rcases List.mem_cons.mp hps with h | h
    · rw [h]; exact foldl_min_le _ _
    · exact foldl_min_le_mem _ _ _ (List.mem_map_of_mem _ h)
  have hlow_mem : (buildCandle ts pts).low_value ∈ pts.map
      (fun p => p.rss) := by
    rw [hlow]
    rcases foldl_min_mem (tl.map (fun p => p.rss)) s.rss with h | h
    · rw [h]; exact List.mem_map_of_mem _ hs_mem
    · obtain ⟨q, hq, hqe⟩ := List.mem_map.mp h
      exact hqe ▸ List.mem_map_of_mem _ (htl_mem q hq)
  cases htl : tl with
  | nil =>
    subst htl
    have hcl : (buildCandle ts pts).close_value = s.rss := by
      rw [hclose]; simp
    refine ⟨s, s, by rw [hstl]; rfl, by rw [hstl]; rfl, hopen, hcl,
      hhigh_ub, hhigh_mem, hlow_lb, hlow_mem, ?_, ?_, ?_, ?_, ?_⟩
    · rw [hopen]; exact hlow_lb s hs_mem
    · rw [hopen]; exact hhigh_ub s hs_mem
    · rw [hcl]; exact hlow_lb s hs_mem
    · rw [hcl]; exact hhigh_ub s hs_mem
    · intro _
      simp only [List.map_nil, List.foldl_nil, List.getLastD_nil]
        at hclose hhigh hlow
      exact ⟨by rw [hopen, hhigh], by rw [hhigh, hlow], by rw [hlow, hclose]⟩
  | cons t ts' =>
    have htlne : tl ≠ [] := by rw [htl]; simp
    have hlast' : tl.getLast? = some (tl.getLast htlne) :=
      List.getLast?_eq_getLast tl htlne
    set last := tl.getLast htlne with hlastdef
    have hlast_mem : last ∈ pts := htl_mem last (List.getLast_mem htlne)
    have hcl : (buildCandle ts pts).close_value = last.rss := by
      rw [hclose, List.getLastD_eq_getLast?, List.getLast?_map, hlast']
      rfl
    refine ⟨s, last, by rw [hstl]; rfl, ?_, hopen, hcl, hhigh_ub, hhigh_mem,
      hlow_lb, hlow_mem, ?_, ?_, ?_, ?_, ?_⟩
    · rw [hstl, htl, List.getLast?_cons_cons, ← htl, hlast']
    · rw [hopen]; exact hlow_lb s hs_mem
    · rw [hopen]; exact hhigh_ub s hs_mem
    · rw [hcl]; exact hlow_lb last hlast_mem
    · rw [hcl]; exact hhigh_ub last hlast_mem
    · intro h1
      exfalso
      rw [h1, hstl, htl] at hlen
      simp at hlen

/-! ### Collision suffixing (claim C2) and identity stability (claim C3) -/

/-- C2: starting from an empty resolver, resolving PID `p` with pairwise
distinct commands `A`, `B`, `C` in that order — with arbitrary other PIDs
resolved in between — yields `str(p)`, `p(2)`, `p(3)`, and afterwards the
mapping holds `C` for `p`, so the mapping-file row looked up by raw PID `p`
shows command `C`. -/
theorem collision_suffixing (p : Nat) (A B C : Str)
    (l0 l1 l2 : List (Nat × Str))
    (h0 : ∀ e ∈ l0, e.1 ≠ p) (h1 : ∀ e ∈ l1, e.1 ≠ p)
    (h2 : ∀ e ∈ l2, e.1 ≠ p)
    (hAB : A ≠ B) (hBC : B ≠ C) (hAC : A ≠ C) :
    let s1 := (resolveList RState.init l0).2
    let r1 := resolve s1 p A
    let s2 := (resolveList r1.2 l1).2
    let r2 := resolve s2 p B
    let s3 := (resolveList r2.2 l2).2
    let r3 := resolve s3 p C
    r1.1 = natToDecimal p ∧ r2.1 = mkKey p 2 ∧ r3.1 = mkKey p 3 ∧
    lookupA r3.2.pid_cmd_mapping p = some C ∧
    mappingLineFor r3.2.pid_cmd_mapping (natToDecimal p)
      = natToDecimal p ++ '\t' :: C := by
  intro s1 r1 s2 r2 s3 r3
  have h00 := resolveList_preserves_ne p l0 RState.init h0
  have hm1 : lookupA s1.pid_cmd_mapping p = none := by
    have : lookupA RState.init.pid_cmd_mapping p = none := rfl
    rw [← this]
    exact h00.1
  have hk1 : lookupA s1.pid_counters p = none := by
    have : lookupA RState.init.pid_counters p = none := rfl
    rw [← this]
    exact h00.2
  have hr1 : r1 = (natToDecimal p,
      { s1 with pid_cmd_mapping := setA s1.pid_cmd_mapping p A }) := by
    show resolve s1 p A = _
    unfold resolve
    rw [hm1]
  have h11 := resolveList_preserves_ne p l1 r1.2 h1
  have hm2 : lookupA s2.pid_cmd_mapping p = some A := by
    show lookupA (resolveList r1.2 l1).2.pid_cmd_mapping p = some A
    rw [h11.1, hr1]
    exact lookupA_setA_self p A _
  have hk2 : lookupA s2.pid_counters p = none := by
    show lookupA (resolveList r1.2 l1).2.pid_counters p = none
    rw [h11.2, hr1]
    exact hk1
  have hr2 : r2 = (mkKey p 2,
      { pid_cmd_mapping := setA s2.pid_cmd_mapping p B,
        pid_counters := setA s2.pid_counters p 2 }) := by
    show resolve s2 p B = _
    unfold resolve
    rw [hm2, hk2]
    simp [hAB]
  have h22 := resolveList_preserves_ne p l2 r2.2 h2
  have hm3 : lookupA s3.pid_cmd_mapping p = some B := by
    show lookupA (resolveList r2.2 l2).2.pid_cmd_mapping p = some B
    rw [h22.1, hr2]
    exact lookupA_setA_self p B _
  have hk3 : lookupA s3.pid_counters p = some 2 := by
    show lookupA (resolveList r2.2 l2).2.pid_counters p = some 2
    rw [h22.2, hr2]
    exact lookupA_setA_self p 2 _
  have hr3 : r3 = (mkKey p 3,
      { pid_cmd_mapping := setA s3.pid_cmd_mapping p C,
        pid_counters := setA s3.pid_counters p 3 }) := by
    show resolve s3 p C = _
    unfold resolve
    rw [hm3, hk3]
    simp [hBC]
  refine ⟨by rw [hr1], by rw [hr2], by rw [hr3], ?_, ?_⟩
  · rw [hr3]
    exact lookupA_setA_self p C _
  · rw [hr3]
    unfold mappingLineFor
    rw [extractOriginalPid_natToDecimal, lookupA_setA_self]
    rfl

/-- C2 witness at PID 100, commands `A`, `B`, `C`, no interleavings. -/
theorem collision_suffixing_witness :
    (resolve (resolveList RState.init []).2 100 ['A']).1 = natToDecimal 100 ∧
    (resolve (resolveList (resolve (resolveList RState.init []).2 100
      ['A']).2 []).2 100 ['B']).1 = mkKey 100 2 ∧
    (resolve (resolveList (resolve (resolveList (resolve (resolveList
      RState.init []).2 100 ['A']).2 []).2 100 ['B']).2 []).2 100
      ['C']).1 = mkKey 100 3 ∧
    lookupA (resolve (resolveList (resolve (resolveList (resolve
      (resolveList RState.init []).2 100 ['A']).2 []).2 100 ['B']).2
      []).2 100 ['C']).2.pid_cmd_mapping 100 = some ['C'] ∧
    mappingLineFor (resolve (resolveList (resolve (resolveList (resolve
      (resolveList RState.init []).2 100 ['A']).2 []).2 100 ['B']).2
      []).2 100 ['C']).2.pid_cmd_mapping (natToDecimal 100)
      = natToDecimal 100 ++ '\t' :: ['C'] :=
  collision_suffixing 100 ['A'] ['B'] ['C'] [] [] []
    (by decide) (by decide) (by decide) (by decide) (by decide) (by decide)

/-- C3 counterexample: requests 0 and 2 carry the identical `(pid, cmd)`
pair `(100, "A")`, yet the resolver returns different series keys (`100`
and `100(3)`), because the intervening `(100, "B")` resolution overwrote
the recorded command. -/
theorem identity_stability_counterexample :
    ([(100, ['A']), (100, ['B']), (100, ['A'])] : List (Nat × Str)).getD 0
        (0, []) =
      ([(100, ['A']), (100, ['B']), (100, ['A'])] : List (Nat × Str)).getD 2
        (0, []) ∧
    (resolveList RState.init
        [(100, ['A']), (100, ['B']), (100, ['A'])]).1.getD 0 [] ≠
      (resolveList RState.init
        [(100, ['A']), (100, ['B']), (100, ['A'])]).1.getD 2 [] := by
  constructor
  · rfl
  · decide

/-- C3 amended: the resolved key for a fixed `(p, c)` pair is the same
(`str(p)`) at every occurrence, provided no request for the same PID `p`
with a *different* command occurs in the run; interleaved resolutions of
other PIDs never affect it. -/
theorem identity_stability_same_command (p : Nat) (c : Str) :
    ∀ (l : List (Nat × Str)) (s : RState),
      (lookupA s.pid_cmd_mapping p = none ∨
        lookupA s.pid_cmd_mapping p = some c) →
      (∀ e ∈ l, e.1 = p → e.2 = c) →
      ∀ i, i < l.length → l.getD i (0, []) = (p, c) →
        (resolveList s l).1.getD i [] = natToDecimal p := by
  intro l
  induction l with
  | nil => intro s _ _ i hi; simp at hi
  | cons e rest ih =>
    intro s hs hl i hi hreq
    obtain ⟨q, cm⟩ := e
    cases i with
    | zero =>
      simp only [List.getD_cons_zero] at hreq
      have hq : q = p := congrArg Prod.fst hreq
      have hcm : cm = c := congrArg Prod.snd hreq
      subst hq
      subst hcm
      simp only [resolveList, List.getD_cons_zero]
      rcases hs with hs | hs
      · unfold resolve
        rw [hs]
      · unfold resolve
        rw [hs]
        simp
    | succ j =>
      simp only [List.getD_cons_succ] at hreq
      simp only [resolveList, List.getD_cons_succ]
      have hlen : j < rest.length := by
        simp only [List.length_cons] at hi
        omega
      have hrest : ∀ e ∈ rest, e.1 = p → e.2 = c := fun e he =>
        hl e (List.mem_cons_of_mem _ he)
      apply ih (resolve s q cm).2 _ hrest j hlen hreq
      by_cases hqp : q = p
      · subst hqp
        have hcm : cm = c := hl (q, cm) (List.mem_cons_self _ _) rfl
        subst hcm
        rcases hs with hs | hs
        · right
          unfold resolve
          rw [hs]
          simp only
          exact lookupA_setA_self _ _ _
        · right
          unfold resolve
          rw [hs]
          simp only [if_pos rfl]
          exact hs
      · rw [(resolve_preserves_ne s q cm p hqp).1]
        exact hs

/-- C3 amended witness: PID 100 always carries command `A` in the run;
both its resolutions (positions 0 and 2) yield `str(100)`. -/
theorem identity_stability_same_command_witness :
    (resolveList RState.init
      [(100, ['A']), (5, ['B']), (100, ['A'])]).1.getD 2 []
      = natToDecimal 100 :=
  identity_stability_same_command 100 ['A']
    [(100, ['A']), (5, ['B']), (100, ['A'])] RState.init
    (Or.inl rfl) (by decide) 2 (by decide) (by decide)

/-! ### Resolution order (claim C4) and bucket monotonicity (claim C6) -/

/-- C4 counterexample: two records enumerated in anti-chronological order;
the sample holding the *later* timestamp is resolved first (position 0),
so resolution follows file-enumeration order, not timestamp order. -/
theorem chronological_resolution_counterexample :
    dtLe ((extractProcessData RState.init
        [⟨some ⟨0, 0, 1, 0, 0⟩, [JItem.obj (some 1) (some ['a']) (some 5)]⟩,
         ⟨some ⟨0, 0, 0, 0, 0⟩, [JItem.obj (some 2) (some ['b']) (some 6)]⟩]).1.getD
          0 ⟨⟨0, 0, 0, 0, 0⟩, [], [], 0⟩).timestamp
      ((extractProcessData RState.init
        [⟨some ⟨0, 0, 1, 0, 0⟩, [JItem.obj (some 1) (some ['a']) (some 5)]⟩,
         ⟨some ⟨0, 0, 0, 0, 0⟩, [JItem.obj (some 2) (some ['b']) (some 6)]⟩]).1.getD
          1 ⟨⟨0, 0, 0, 0, 0⟩, [], [], 0⟩).timestamp = false := by
  decide

/-- Every sample produced from one record carries that record's timestamp. -/
theorem processItems_timestamp (ts : PyDateTime) :
    ∀ (items : List JItem) (s : RState),
      ∀ x ∈ (processItems s ts items).1, x.timestamp = ts := by
  intro items
  induction items with
  | nil => intro s x hx; simp [processItems] at hx
  | cons i rest ih =>
    intro s x hx
    cases i with
    | malformed => simp [processItems] at hx
    | obj pid? cmd? rss? =>
      cases pid? with
      | none => exact ih s x hx
      | some pid =>
        simp only [processItems, List.mem_cons] at hx
        rcases hx with hx | hx
        · rw [hx]
        · exact ih _ x hx

/-- Every extracted sample's timestamp is the parsed timestamp of one of
the input records. -/
theorem extract_sample_record :
    ∀ (records : List SnapRecord) (s : RState),
      ∀ x ∈ (extractProcessData s records).1,
        ∃ r ∈ records, r.timestamp = some x.timestamp := by
  intro records
  induction records with
  | nil => intro s x hx; simp [extractProcessData] at hx
  | cons r rest ih =>
    intro s x hx
    cases hts : r.timestamp with
    | none =>
      simp only [extractProcessData, hts] at hx
      obtain ⟨r', hr', he⟩ := ih s x hx
      exact ⟨r', List.mem_cons_of_mem _ hr', he⟩
    | some ts =>
      simp only [extractProcessData, hts, List.mem_append] at hx
      rcases hx with hx | hx
      · refine ⟨r, List.mem_cons_self _ _, ?_⟩
        rw [hts, processItems_timestamp ts r.items s x hx]
      · obtain ⟨r', hr', he⟩ := ih _ x hx
        exact ⟨r', List.mem_cons_of_mem _ hr', he⟩

/-- Record comparison used to state chronological enumeration. -/
def recTsLe (a b : SnapRecord) : Bool :=
  match a.timestamp, b.timestamp with
  | some ta, some tb => dtLe ta tb
  | _, _ => true

theorem pairwise_const_ts (ts : PyDateTime) :
    ∀ l : List PyDateTime, (∀ x ∈ l, x = ts) →
      l.Pairwise (fun a b => dtLe a b = true) := by
  intro l
  induction l with
  | nil => intro _; exact List.Pairwise.nil
  | cons x xs ih =>
    intro h
    refine List.pairwise_cons.mpr ⟨?_, ih (fun y hy => h y
      (List.mem_cons_of_mem _ hy))⟩
    intro y hy
    rw [h x (List.mem_cons_self _ _), h y (List.mem_cons_of_mem _ hy)]
    exact dtLe_refl ts

/-- C4 amended: samples are fed to the resolver in file-enumeration order
(records in the order enumerated, items within a record in order); only
when the record list happens to be enumerated chronologically is the
sample stream chronological. -/
theorem extraction_chronological_of_sorted_enumeration :
    ∀ (records : List SnapRecord) (s : RState),
      records.Pairwise (fun a b => recTsLe a b = true) →
      ((extractProcessData s records).1.map
        (fun x => x.timestamp)).Pairwise (fun a b => dtLe a b = true) := by
  intro records
  induction records with
  | nil => intro s _; exact List.Pairwise.nil
  | cons r rest ih =>
    intro s hp
    obtain ⟨hr, hrest⟩ := List.pairwise_cons.mp hp
    cases hts : r.timestamp with
    | none =>
      simp only [extractProcessData, hts]
      exact ih s hrest
    | some ts =>
      simp only [extractProcessData, hts, List.map_append]
      apply List.pairwise_append.mpr
      refine ⟨?_, ?_, ?_⟩
      · apply pairwise_const_ts ts
        intro x hx
        obtain ⟨y, hy, he⟩ := List.mem_map.mp hx
        rw [← he, processItems_timestamp ts r.items s y hy]
      · exact ih _ hrest
      · intro ta hta tb htb
        obtain ⟨ya, hya, hea⟩ := List.mem_map.mp hta
        obtain ⟨yb, hyb, heb⟩ := List.mem_map.mp htb
        have hta' : ta = ts := by
          rw [← hea, processItems_timestamp ts r.items s ya hya]
        obtain ⟨rb, hrb, hrbts⟩ := extract_sample_record rest _ yb hyb
        have hrel := hr rb hrb
        unfold recTsLe at hrel
        rw [hts, hrbts] at hrel
        rw [hta', ← heb]
        exact hrel

/-- C4 amended witness: two records enumerated chronologically give a
chronological sample stream. -/
theorem extraction_chronological_witness :
    (((extractProcessData RState.init
        [⟨some ⟨0, 0, 0, 0, 0⟩, [JItem.obj (some 2) (some ['b']) (some 6)]⟩,
         ⟨some ⟨0, 0, 1, 0, 0⟩, [JItem.obj (some 1) (some ['a']) (some 5)]⟩]).1.map
      (fun x => x.timestamp)).Pairwise (fun a b => dtLe a b = true)) :=
  extraction_chronological_of_sorted_enumeration
    [⟨some ⟨0, 0, 0, 0, 0⟩, [JItem.obj (some 2) (some ['b']) (some 6)]⟩,
     ⟨some ⟨0, 0, 1, 0, 0⟩, [JItem.obj (some 1) (some ['a']) (some 5)]⟩]
    RState.init (by decide)

theorem lexLe5 (a b c d e a' b' c' d' e' : Nat) :
    lexLe [a, b, c, d, e] [a', b', c', d', e'] = true ↔
      (a < a' ∨ (a = a' ∧ (b < b' ∨ (b = b' ∧ (c < c' ∨ (c = c' ∧
        (d < d' ∨ (d = d' ∧ e ≤ e')))))))) := by
  simp only [lexLe]
  split_ifs <;> simp <;> omega

/-- C6: for a fixed positive interval width, the bucket-start computation
is monotone in the timestamp. -/
theorem bucketStart_monotone (t1 t2 : PyDateTime) (iv : Nat) (hiv : 0 < iv)
    (h : dtLe t1 t2 = true) :
    dtLe (bucketStart t1 iv) (bucketStart t2 iv) = true := by
  have h' : lexLe [t1.date, t1.hour, t1.minute, t1.second, t1.micro]
      [t2.date, t2.hour, t2.minute, t2.second, t2.micro] = true := h
  rw [lexLe5] at h'
  have hgoal : dtLe (bucketStart t1 iv) (bucketStart t2 iv)
      = lexLe [t1.date, t1.hour, t1.minute / iv * iv, 0, 0]
          [t2.date, t2.hour, t2.minute / iv * iv, 0, 0] := rfl
  rw [hgoal, lexLe5]
  have hmono : t1.minute ≤ t2.minute →
      t1.minute / iv * iv ≤ t2.minute / iv * iv := fun hxy =>
    Nat.mul_le_mul_right iv (Nat.div_le_div_right hxy)
  rcases h' with h1 | ⟨he1, h2⟩
  · exact Or.inl h1
  · refine Or.inr ⟨he1, ?_⟩
    rcases h2 with h2 | ⟨he2, h3⟩
    · exact Or.inl h2
    · refine Or.inr ⟨he2, ?_⟩
      have hf : t1.minute / iv * iv ≤ t2.minute / iv * iv := by
        apply hmono
        rcases h3 with h3 | ⟨he3, _⟩
        · omega
        · omega
      omega

/-- C6 witness: `10:14:59` and `10:15:00` at a 15-minute interval. -/
theorem bucketStart_monotone_witness :
    dtLe (bucketStart ⟨20, 10, 14, 59, 0⟩ 15)
      (bucketStart ⟨20, 10, 15, 0, 0⟩ 15) = true :=
  bucketStart_monotone ⟨20, 10, 14, 59, 0⟩ ⟨20, 10, 15, 0, 0⟩ 15
    (by decide) (by decide)

/-! ### Determinism (claim C7), empty window (claim C8),
item error handling (claim C9), window filter (claim C10) -/

/-- C7: the run is a pure function of the enumerated snapshot files, the
window and the interval — two runs over the identical input produce
identical primary-table text and identical mapping text. (The embedding
is deterministic by construction: Python dicts iterate in insertion
order, and no other ordering source exists in the pipeline; determinism
is relative to the file enumeration order, which an unchanged directory
yields reproducibly.) -/
theorem aggregation_deterministic (files1 files2 : List FileEntry)
    (startTime endTime : PyDateTime) (iv : Nat) (out : Str)
    (h : files1 = files2) :
    aggregateRun files1 startTime endTime iv out
      = aggregateRun files2 startTime endTime iv out := by
  rw [h]

/-- C7 witness. -/
theorem aggregation_deterministic_witness :
    aggregateRun [] ⟨0, 0, 0, 0, 0⟩ ⟨0, 0, 1, 0, 0⟩ 15 ['o']
      = aggregateRun [] ⟨0, 0, 0, 0, 0⟩ ⟨0, 0, 1, 0, 0⟩ 15 ['o'] :=
  aggregation_deterministic [] [] ⟨0, 0, 0, 0, 0⟩ ⟨0, 0, 1, 0, 0⟩ 15 ['o']
    (by decide)

/-- C8: when the candle set is empty, the CLI run exits 0, emits a warning
and writes neither the table file nor the mapping file. -/
theorem empty_window_no_output (files : List FileEntry)
    (startTime endTime : PyDateTime) (iv : Nat) (out : Str)
    (h : (aggregateToCandles files startTime endTime iv).1.isEmpty = true) :
    (mainRun files startTime endTime iv out).exitCode = 0 ∧
    (mainRun files startTime endTime iv out).written = [] ∧
    (mainRun files startTime endTime iv out).warnings ≠ [] := by
  unfold mainRun
  simp [h]

/-- C8 witness: an empty file set matches zero snapshots. -/
theorem empty_window_no_output_witness :
    (mainRun [] ⟨0, 0, 0, 0, 0⟩ ⟨0, 0, 1, 0, 0⟩ 15 ['o']).exitCode = 0 ∧
    (mainRun [] ⟨0, 0, 0, 0, 0⟩ ⟨0, 0, 1, 0, 0⟩ 15 ['o']).written = [] ∧
    (mainRun [] ⟨0, 0, 0, 0, 0⟩ ⟨0, 0, 1, 0, 0⟩ 15 ['o']).warnings ≠ [] :=
  empty_window_no_output [] ⟨0, 0, 0, 0, 0⟩ ⟨0, 0, 1, 0, 0⟩ 15 ['o']
    (by decide)

/-- C9 counterexample: in a record with a well-formed first item, a
structurally malformed (non-dict) second item and a well-formed third
item, the third item contributes no sample: the exception raised by the
malformed item aborts the rest of the record (only the first item's
sample survives), contradicting "each malformed item is skipped on its
own and all remaining items contribute". -/
theorem item_recovery_counterexample :
    ((extractProcessData RState.init
      [⟨some ⟨0, 0, 0, 0, 0⟩,
        [JItem.obj (some 1) (some ['a']) (some 5), JItem.malformed,
         JItem.obj (some 2) (some ['b']) (some 7)]⟩]).1.map
      (fun x => x.pid)) = [natToDecimal 1] ∧
    natToDecimal 2 ∉ ((extractProcessData RState.init
      [⟨some ⟨0, 0, 0, 0, 0⟩,
        [JItem.obj (some 1) (some ['a']) (some 5), JItem.malformed,
         JItem.obj (some 2) (some ['b']) (some 7)]⟩]).1.map
      (fun x => x.pid)) := by
  constructor
  · decide
  · decide

/-- C9 amended: a record whose own parse fails is skipped entirely; within
a record, items are consumed left to right — an item merely lacking a
`pid` key is skipped on its own and the remaining items still contribute,
but a structurally malformed (non-dict) item aborts the remainder of its
record, keeping only the samples already extracted. -/
theorem extraction_error_handling (s : RState) (ts : PyDateTime) :
    (∀ (r : SnapRecord) (rest : List SnapRecord), r.timestamp = none →
      (extractProcessData s (r :: rest)).1
        = (extractProcessData s rest).1) ∧
    (∀ items : List JItem,
      ((processItems s ts items).1.map (fun x => (x.timestamp, x.rss)))
        = (items.takeWhile JItem.isObj).filterMap (fun i =>
            match i with
            | JItem.obj (some _) _ rss? => some (ts, rss?.getD 0)
            | JItem.obj none _ _ => none
            | JItem.malformed => none)) := by
  constructor
  · intro r rest hr
    simp only [extractProcessData, hr]
  · intro items
    induction items generalizing s with
    | nil => rfl
    | cons i rest ih =>
      cases i with
      | malformed =>
        simp [processItems, List.takeWhile_cons, JItem.isObj]
      | obj pid? cmd? rss? =>
        cases pid? with
        | none =>
          simpa [processItems, List.takeWhile_cons, JItem.isObj] using ih s
        | some pid =>
          simp only [processItems, List.takeWhile_cons, JItem.isObj,
            if_true, List.filterMap_cons, List.map_cons]
          rw [ih]

/-- C9 amended witness: a parse-failed record contributes nothing, and in
a record with items (pid-less, well-formed), the pid-less item is skipped
while the well-formed one still contributes. -/
theorem extraction_error_handling_witness :
    ((extractProcessData RState.init
        [⟨none, [JItem.obj (some 9) (some ['x']) (some 1)]⟩]).1
      = (extractProcessData RState.init []).1) ∧
    ((processItems RState.init ⟨0, 0, 0, 0, 0⟩
        [JItem.obj none (some ['a']) (some 5),
         JItem.obj (some 2) (some ['b']) (some 7)]).1.map
        (fun x => (x.timestamp, x.rss)))
      = ([JItem.obj none (some ['a']) (some 5),
          JItem.obj (some 2) (some ['b']) (some 7)].takeWhile
            JItem.isObj).filterMap (fun i =>
          match i with
          | JItem.obj (some _) _ rss? => some ((⟨0, 0, 0, 0, 0⟩ : PyDateTime),
              rss?.getD 0)
          | JItem.obj none _ _ => none
          | JItem.malformed => none) :=
  ⟨(extraction_error_handling RState.init ⟨0, 0, 0, 0, 0⟩).1
      ⟨none, [JItem.obj (some 9) (some ['x']) (some 1)]⟩ [] rfl,
   (extraction_error_handling RState.init ⟨0, 0, 0, 0, 0⟩).2
      [JItem.obj none (some ['a']) (some 5),
       JItem.obj (some 2) (some ['b']) (some 7)]⟩

/-- C10: the snapshot-file window filter is inclusive at both endpoints:
the membership test is `start_time <= file_time <= end_time`, and in
particular a parseable file whose filename time equals the window start
or the window end is loaded. -/
theorem window_filter_inclusive (startTime endTime : PyDateTime)
    (files : List FileEntry) (f : FileEntry) (r : SnapRecord)
    (t : PyDateTime) (hmem : f ∈ files) (ht : f.ftime = some t)
    (hr : f.record = some r) (hwin : dtLe startTime endTime = true)
    (hend : t = startTime ∨ t = endTime) :
    (dtLe startTime t = true ∧ dtLe t endTime = true) ∧
    r ∈ loadJsonFiles startTime endTime files := by
  have h1 : dtLe startTime t = true ∧ dtLe t endTime = true := by
    rcases hend with h | h
    · subst h; exact ⟨dtLe_refl t, hwin⟩
    · subst h; exact ⟨hwin, dtLe_refl t⟩
  refine ⟨h1, ?_⟩
  unfold loadJsonFiles
  apply List.mem_filterMap.mpr
  refine ⟨f, hmem, ?_⟩
  rw [ht]
  simp only [h1.1, h1.2, Bool.and_self, if_pos, hr]

/-- C10 witness: a file timestamped exactly at the window start. -/
theorem window_filter_inclusive_witness :
    ((dtLe ⟨0, 0, 0, 0, 0⟩ ⟨0, 0, 0, 0, 0⟩ = true ∧
      dtLe ⟨0, 0, 0, 0, 0⟩ ⟨0, 0, 1, 0, 0⟩ = true) ∧
    (⟨some ⟨0, 0, 0, 0, 0⟩, []⟩ : SnapRecord) ∈
      loadJsonFiles ⟨0, 0, 0, 0, 0⟩ ⟨0, 0, 1, 0, 0⟩
        [⟨some ⟨0, 0, 0, 0, 0⟩, some ⟨some ⟨0, 0, 0, 0, 0⟩, []⟩⟩]) :=
  window_filter_inclusive ⟨0, 0, 0, 0, 0⟩ ⟨0, 0, 1, 0, 0⟩
    [⟨some ⟨0, 0, 0, 0, 0⟩, some ⟨some ⟨0, 0, 0, 0, 0⟩, []⟩⟩]
    ⟨some ⟨0, 0, 0, 0, 0⟩, some ⟨some ⟨0, 0, 0, 0, 0⟩, []⟩⟩
    ⟨some ⟨0, 0, 0, 0, 0⟩, []⟩ ⟨0, 0, 0, 0, 0⟩
    (by decide) rfl rfl (by decide) (Or.inl rfl)

/-! ### Pivot series-axis ordering (claim C5) -/

/-- C5: the pivot's series axis is sorted ascending by the numeric PID
obtained by stripping any `(n)` suffix; keys sharing one numeric PID
appear base key first, then `(2)`, `(3)`, … in counter order (the filter
of the axis to one raw PID is exactly the resolver's mint chain); in
particular `42`, `42(2)`, `7` order as `7`, `42`, `42(2)`. -/
theorem pivot_series_axis_order (files : List FileEntry)
    (startTime endTime : PyDateTime) (iv : Nat) :
    (pidListOf (aggregateToCandles files startTime endTime iv).1).Pairwise
      (fun a b => extractOriginalPid a ≤ extractOriginalPid b) ∧
    (∀ p : Nat,
      (pidListOf (aggregateToCandles files startTime endTime iv).1).filter
          (fun o => extractOriginalPid o = p) = [] ∨
      ∃ m, (pidListOf
          (aggregateToCandles files startTime endTime iv).1).filter
          (fun o => extractOriginalPid o = p)
        = natToDecimal p :: (List.range' 2 m).map (mkKey p)) ∧
    sortByKey extractOriginalPid [("42".data), ("42(2)".data), ("7".data)]
      = [("7".data), ("42".data), ("42(2)".data)] := by
  have hagg : (aggregateToCandles files startTime endTime iv).1
      = generateCandles (groupByTimeInterval
          (extractProcessData RState.init
            (loadJsonFiles startTime endTime files)).1 iv) := rfl
  refine ⟨pairwise_sortByKey _ _, ?_, by decide⟩
  intro p
  have hkeys : (aggregateToCandles files startTime endTime iv).1.map
      (fun e => e.1)
      = dedupF ((extractProcessData RState.init
          (loadJsonFiles startTime endTime files)).1.map
          (fun x => x.pid)) := by
    rw [hagg, generateCandles_keys]
    have h2 : (groupByTimeInterval (extractProcessData RState.init
        (loadJsonFiles startTime endTime files)).1 iv).map (fun g => g.1.2)
        = ((groupByTimeInterval (extractProcessData RState.init
            (loadJsonFiles startTime endTime files)).1 iv).map
            (fun g => g.1)).map (fun q => q.2) := by
      rw [List.map_map]
      rfl
    rw [h2, groupByTimeInterval_keys, dedupF_map_dedupF, List.map_map]
    rfl
  have houts := (extractProcessData_spec
    (loadJsonFiles startTime endTime files) RState.init).1
  obtain ⟨hchain, _⟩ := resolveList_chain
    (callsOfRecords (loadJsonFiles startTime endTime files)) p
  have hfilter : ((pidListOf (aggregateToCandles files startTime endTime
      iv).1).filter (fun o => extractOriginalPid o = p))
      = chainOf (resolveList RState.init (callsOfRecords
          (loadJsonFiles startTime endTime files))).2 p := by
    unfold pidListOf
    rw [filter_sortByKey, hkeys, houts, dedupF_filter, hchain]
  cases hM : lookupA (resolveList RState.init (callsOfRecords
      (loadJsonFiles startTime endTime files))).2.pid_cmd_mapping p with
  | none =>
    left
    rw [hfilter]
    simp only [chainOf, hM]
  | some cm =>
    right
    refine ⟨counterLen (resolveList RState.init (callsOfRecords
      (loadJsonFiles startTime endTime files))).2 p, ?_⟩
    rw [hfilter]
    simp only [chainOf, hM]

/-- C1 witness: a one-sample group. -/
theorem candle_build_spec_witness :
    ∃ first last,
      (sortPointsByTime
        [⟨⟨0, 0, 0, 0, 0⟩, ['7'], ['a'], 5⟩]).head? = some first ∧
      (sortPointsByTime
        [⟨⟨0, 0, 0, 0, 0⟩, ['7'], ['a'], 5⟩]).getLast? = some last ∧
      (buildCandle ⟨0, 0, 0, 0, 0⟩
        [⟨⟨0, 0, 0, 0, 0⟩, ['7'], ['a'], 5⟩]).open_value = first.rss ∧
      (buildCandle ⟨0, 0, 0, 0, 0⟩
        [⟨⟨0, 0, 0, 0, 0⟩, ['7'], ['a'], 5⟩]).close_value = last.rss ∧
      (∀ p ∈ ([⟨⟨0, 0, 0, 0, 0⟩, ['7'], ['a'], 5⟩] :
          List ProcessDataPoint), p.rss ≤
        (buildCandle ⟨0, 0, 0, 0, 0⟩
          [⟨⟨0, 0, 0, 0, 0⟩, ['7'], ['a'], 5⟩]).high_value) ∧
      (buildCandle ⟨0, 0, 0, 0, 0⟩
        [⟨⟨0, 0, 0, 0, 0⟩, ['7'], ['a'], 5⟩]).high_value ∈
        ([⟨⟨0, 0, 0, 0, 0⟩, ['7'], ['a'], 5⟩] :
          List ProcessDataPoint).map (fun p => p.rss) ∧
      (∀ p ∈ ([⟨⟨0, 0, 0, 0, 0⟩, ['7'], ['a'], 5⟩] :
          List ProcessDataPoint),
        (buildCandle ⟨0, 0, 0, 0, 0⟩
          [⟨⟨0, 0, 0, 0, 0⟩, ['7'], ['a'], 5⟩]).low_value ≤ p.rss) ∧
      (buildCandle ⟨0, 0, 0, 0, 0⟩
        [⟨⟨0, 0, 0, 0, 0⟩, ['7'], ['a'], 5⟩]).low_value ∈
        ([⟨⟨0, 0, 0, 0, 0⟩, ['7'], ['a'], 5⟩] :
          List ProcessDataPoint).map (fun p => p.rss) ∧
      (buildCandle ⟨0, 0, 0, 0, 0⟩
        [⟨⟨0, 0, 0, 0, 0⟩, ['7'], ['a'], 5⟩]).low_value ≤
        (buildCandle ⟨0, 0, 0, 0, 0⟩
          [⟨⟨0, 0, 0, 0, 0⟩, ['7'], ['a'], 5⟩]).open_value ∧
      (buildCandle ⟨0, 0, 0, 0, 0⟩
        [⟨⟨0, 0, 0, 0, 0⟩, ['7'], ['a'], 5⟩]).open_value ≤
        (buildCandle ⟨0, 0, 0, 0, 0⟩
          [⟨⟨0, 0, 0, 0, 0⟩, ['7'], ['a'], 5⟩]).high_value ∧
      (buildCandle ⟨0, 0, 0, 0, 0⟩
        [⟨⟨0, 0, 0, 0, 0⟩, ['7'], ['a'], 5⟩]).low_value ≤
        (buildCandle ⟨0, 0, 0, 0, 0⟩
          [⟨⟨0, 0, 0, 0, 0⟩, ['7'], ['a'], 5⟩]).close_value ∧
      (buildCandle ⟨0, 0, 0, 0, 0⟩
        [⟨⟨0, 0, 0, 0, 0⟩, ['7'], ['a'], 5⟩]).close_value ≤
        (buildCandle ⟨0, 0, 0, 0, 0⟩
          [⟨⟨0, 0, 0, 0, 0⟩, ['7'], ['a'], 5⟩]).high_value ∧
      (([⟨⟨0, 0, 0, 0, 0⟩, ['7'], ['a'], 5⟩] :
          List ProcessDataPoint).length = 1 →
        (buildCandle ⟨0, 0, 0, 0, 0⟩
          [⟨⟨0, 0, 0, 0, 0⟩, ['7'], ['a'], 5⟩]).open_value =
          (buildCandle ⟨0, 0, 0, 0, 0⟩
            [⟨⟨0, 0, 0, 0, 0⟩, ['7'], ['a'], 5⟩]).high_value ∧
        (buildCandle ⟨0, 0, 0, 0, 0⟩
          [⟨⟨0, 0, 0, 0, 0⟩, ['7'], ['a'], 5⟩]).high_value =
          (buildCandle ⟨0, 0, 0, 0, 0⟩
            [⟨⟨0, 0, 0, 0, 0⟩, ['7'], ['a'], 5⟩]).low_value ∧
        (buildCandle ⟨0, 0, 0, 0, 0⟩
          [⟨⟨0, 0, 0, 0, 0⟩, ['7'], ['a'], 5⟩]).low_value =
          (buildCandle ⟨0, 0, 0, 0, 0⟩
            [⟨⟨0, 0, 0, 0, 0⟩, ['7'], ['a'], 5⟩]).close_value) :=
  candle_build_spec ⟨0, 0, 0, 0, 0⟩
    [⟨⟨0, 0, 0, 0, 0⟩, ['7'], ['a'], 5⟩] (by decide)
